import Mathlib

/-!
gitdetect: rule matching and defect aggregation.

A shallow embedding of the detection and aggregation core of gitdetect
(packages `rule`, `secret` and `defect`, and the parameter validation of
package `main`) together with the properties proved about it.

Conventions of the embedding.

* A Go `string` is a list of bytes (`GoString`); `len` is `List.length` and
  `s[k:]` is `List.drop k`, guarded by the bounds check Go performs.  A `range`
  over a string visits the runes of its UTF-8 decoding (`runes`).
* A `*Defect` is an address into an explicit store of `Defect` records
  (`Heap`); the nil pointer is `none`.  An address outside the store cannot be
  dereferenced: the operation fails (`none`), as the Go program panics.
* A Go `map` is a function from keys to optional values.
* Failing operations (a panic) return `none`.
* A Go `int` is an integer of 64 bits; the result of `count++` wraps
  (`wrapInt`).
* Floating-point arithmetic is not modelled bit by bit: `Entropy` is written
  over a field with the logarithm as a parameter, and `Rule.Match` takes the
  value `float32(Entropy(s))` as a parameter and compares it as Go does.
* Calls into the Go library and into the package `secret/exploit` (regular
  expressions, md5, flag parsing, `os.Getwd`, `os.Stat`, the verification hook)
  are parameters.
* Logging is not modelled.
-/

namespace Gitdetect

/-! ## Go data -/

/-- A Go string: an immutable sequence of bytes. -/
abbrev GoString := List UInt8

/-- The values a Go `float32` can take, up to the sign of zero: not-a-number, the two
infinities and the finite values (every finite floating-point number is a rational).
Only the comparisons the program performs on them are modelled. -/
inductive GoFloat where
  | nan
  | posInf
  | negInf
  | fin (q : ℚ)
deriving DecidableEq

/-- The Go comparison `x == 0`. -/
def GoFloat.isZero : GoFloat → Bool
  | .fin q => decide (q = 0)
  | _ => false

/-- The Go comparison `x >= y`; false as soon as one side is not-a-number. -/
def GoFloat.ge : GoFloat → GoFloat → Bool
  | .nan, _ => false
  | _, .nan => false
  | .posInf, _ => true
  | _, .negInf => true
  | .negInf, _ => false
  | .fin _, .posInf => false
  | .fin a, .fin b => decide (b ≤ a)

/-- The largest value of a Go `int` (64 bits). -/
def MaxInt : Int := 9223372036854775807

/-- The smallest value of a Go `int` (64 bits). -/
def MinInt : Int := -9223372036854775808

/-- The Go `int` that the result of an arithmetic operation on `int` wraps to: the value
of the mathematical result modulo `2^64` in the range from `MinInt` to `MaxInt`. -/
def wrapInt (x : Int) : Int :=
  (x + 9223372036854775808) % 18446744073709551616 - 9223372036854775808

/-! ## Package rule -/

/-- A compiled regular expression (`*regexp.Regexp` of the Go standard library, which is
not part of the repository), given by the four methods the program calls on it.
`FindAllStringSubmatch` and `FindAllString` are the calls with `n = -1`.  One match of
`FindAllStringSubmatch` is the function from a group index to the text captured by that
group: Go returns a slice with one entry per entry of `SubexpNames()`, and the program
only indexes it with positions of `SubexpNames()`. -/
structure Regexp where
  MatchString : GoString → Bool
  FindAllStringSubmatch : GoString → List (Nat → GoString)
  FindAllString : GoString → List GoString
  SubexpNames : List GoString

/-- The constant `TARGET_GROUP_NAME = "suspect"`. -/
def TARGET_GROUP_NAME : GoString := [115, 117, 115, 112, 101, 99, 116]

/-- The conditions that must be met to realize secret detection. -/
structure Rule where
  Target : List Regexp
  Except : List Regexp
  Entropy : GoFloat
  Tag : GoString
  ExploitFn : GoString

/-- The two inner loops of `matchOneOf` for one regular expression: for every match `i`
and every position `j` of `SubexpNames()` whose name is `TARGET_GROUP_NAME`, the text
`matchedGroups[i][j]`. -/
def suspectGroups (rule : Regexp) (matchedGroups : List (Nat → GoString)) : List GoString :=
  matchedGroups.flatMap (fun groups =>
    (rule.SubexpNames.enum.filter (fun jn => jn.2 = TARGET_GROUP_NAME)).map (fun jn => groups jn.1))

/-- One iteration of the loop of `matchOneOf` over the regular expressions; the state is
the pair of named results `(matches, found)`. -/
def matchOneOf.step (text : GoString) (acc : List GoString × Bool) (rule : Regexp) :
    List GoString × Bool :=
  if rule.MatchString text then
    let found := true
    let matchedGroups := rule.FindAllStringSubmatch text
    let matched := acc.1 ++ suspectGroups rule matchedGroups
    -- if no subgroup was indicated, return the whole matched expression
    if found && matched.length == 0 then
      (rule.FindAllString text, found)
    else
      (matched, found)
  else
    acc

/-- The function `matchOneOf(text, rules)`, returning `(matches, found)`. -/
def matchOneOf (text : GoString) (rules : List Regexp) : List GoString × Bool :=
  rules.foldl (matchOneOf.step text) ([], false)

/-- The method `Rule.matchTargetRule`. -/
def Rule.matchTargetRule (rule : Rule) (text : GoString) : List GoString × Bool :=
  matchOneOf text rule.Target

/-- The method `Rule.matchExclusionRule`. -/
def Rule.matchExclusionRule (rule : Rule) (text : GoString) : Bool :=
  (matchOneOf text rule.Except).2

/-- One iteration of the loop of `Rule.Match` over the candidates; the state is the pair of
named results `(matches, found)`.  `entropy32 s` stands for the value
`float32(Entropy(s))`: floating-point arithmetic is outside the embedding. -/
def Rule.Match.step (entropy32 : GoString → GoFloat) (rule : Rule) (text : GoString)
    (acc : List GoString × Bool) (regExMatch : GoString) : List GoString × Bool :=
  if rule.Entropy.isZero || (entropy32 regExMatch).ge rule.Entropy then
    if !rule.matchExclusionRule text then
      -- all rule conditions met
      (acc.1 ++ [regExMatch], true)
    else
      acc
  else
    acc

/-- The method `Rule.Match(text)`, returning `(matches, found)`. -/
def Rule.Match (entropy32 : GoString → GoFloat) (rule : Rule) (text : GoString) :
    List GoString × Bool :=
  let (regexMatches, foundRegExMatch) := rule.matchTargetRule text
  if foundRegExMatch then
    regexMatches.foldl (Rule.Match.step entropy32 rule text) ([], false)
  else
    ([], false)

/-! ## Package secret -/

/-- Detected secret metadata. -/
structure Secret where
  FileName : GoString
  Value : GoString
  LineNumber : Int
  Rule : Rule
  ID : GoString

/-- The verification hook `exploit.Exploit.Run` of package `secret/exploit`, which is not
among the sources: a call receives the fields `Fn`, `Secret` and `Filename` and the state
of the outside world, and gives the field `Output`, the returned error (`none` for a nil
error) and the new state of the world. -/
structure ExploitHook (σ : Type) where
  Run : (Fn Secret Filename : GoString) → σ → (GoString × Option GoString) × σ

/-- The method `Secret.Exploit`, returning `exploitInfo` (and the world after the call). -/
def Secret.Exploit {σ : Type} (hook : ExploitHook σ) (this : Secret) (world : σ) :
    GoString × σ :=
  if this.Rule.ExploitFn ≠ [] then
    match hook.Run this.Rule.ExploitFn this.Value this.FileName world with
    | ((output, none), world1) => (output, world1)
    | ((_, some _), world1) => ([], world1)
  else
    ([], world)

/-! ## Package defect -/

/-- File containing secret. -/
structure File where
  Filename : GoString
deriving DecidableEq

/-- A unique secret combination of a file and a unique secret. -/
structure Defect where
  Lines : List Int
  secretID : GoString
  Tag : GoString
  AdditionalInfo : GoString
deriving DecidableEq

/-- The address of a `Defect` record. -/
abbrev Ptr := Nat

/-- The store of the allocated `Defect` records; the address of a record is its position,
and a new record is allocated at the end. -/
abbrev Heap := List Defect

/-- The mapping of files to their `[]*Defect`. -/
structure FileDefects where
  Defects : File → Option (List Ptr)

/-- The FileRepository scanned. -/
structure FileRepo where
  ID : Int
  Org : GoString
  Name : GoString
  Branch : GoString
  Head : GoString
  LastPush : GoString
  LocalDir : GoString
deriving DecidableEq

/-- The report of the detected secrets. -/
structure Report where
  Repositories : FileRepo → Option FileDefects
  DefectCount : Int
  outputDir : GoString

/-- The function `NewFileDefects`. -/
def NewFileDefects : FileDefects :=
  { Defects := fun _ => none }

/-- The `range` loop of `AddInstance` over the list of the file.  It gives the store after
the loop and the value of `newDefect`, or fails when it dereferences an address that is
not allocated.  The assignment `fileDefects[index] = defectInstance` stores back the
address that was read and leaves the list as it is. -/
def AddInstance.loop (secret : Secret) : Heap → List Ptr → Option (Heap × Bool)
  | heap, [] => some (heap, true)
  | heap, p :: rest =>
    match heap[p]? with
    | none => none
    | some defectInstance =>
      if defectInstance.secretID = secret.ID then
        some (heap.set p { defectInstance with
                Lines := defectInstance.Lines ++ [secret.LineNumber] }, false)
      else
        AddInstance.loop secret heap rest

/-- The method `FileDefects.AddInstance(fileName, secret)`.  The result holds the store and
the receiver after the call and the two results `(defectInstance, newDefect)`.  The loop
variable `defectInstance` of the `range` loop is a variable of its own, so the result
`defectInstance` is assigned only in the branch `if newDefect`. -/
def FileDefects.AddInstance (this : FileDefects) (heap : Heap) (fileName : GoString)
    (secret : Secret) : Option (Heap × FileDefects × Option Ptr × Bool) :=
  let file : File := { Filename := fileName }
  let afterLookup : Option (Heap × FileDefects × Bool) :=
    match this.Defects file with
    | some fileDefects =>
      (AddInstance.loop secret heap fileDefects).map (fun r => (r.1, this, r.2))
    | none =>
      some (heap, { Defects := Function.update this.Defects file (some []) }, true)
  match afterLookup with
  | none => none
  | some (heap1, this1, newDefect) =>
    if newDefect then
      let defectInstance : Ptr := heap1.length
      let record : Defect :=
        { secretID := secret.ID, Lines := [secret.LineNumber], Tag := secret.Rule.Tag,
          AdditionalInfo := [] }
      some (heap1 ++ [record],
            { Defects := Function.update this1.Defects file
                (some ((this1.Defects file).getD [] ++ [defectInstance])) },
            some defectInstance, true)
    else
      some (heap1, this1, none, false)

/-- The function `GetRelativeFilename`: the slice `fileName[len(rootDir)+1:]`, which
panics when `len(rootDir)+1` exceeds `len(fileName)`. -/
def GetRelativeFilename (fileName rootDir : GoString) : Option GoString :=
  if rootDir.length + 1 ≤ fileName.length then
    some (fileName.drop (rootDir.length + 1))
  else
    none

/-- The state of a run of `ReduceAndExploit`: the receiver, the store, the outside world,
the local `fileDefects`, and (for the statement of properties only) the list of the calls
of `secret.Exploit()` made so far, each with the string it returned. -/
structure ReduceState (σ : Type) where
  report : Report
  heap : Heap
  world : σ
  fileDefects : FileDefects
  exploited : List (Secret × GoString)

/-- One iteration of the loop of `ReduceAndExploit`. -/
def ReduceAndExploit.step {σ : Type} (hook : ExploitHook σ) (scanRoot : GoString)
    (st : ReduceState σ) (secret : Secret) : Option (ReduceState σ) :=
  match GetRelativeFilename secret.FileName scanRoot with
  | none => none
  | some relativeFileName =>
    match st.fileDefects.AddInstance st.heap relativeFileName secret with
    | none => none
    | some (heap1, fileDefects1, defect, newDefect) =>
      if newDefect then
        let (secretInfo, world1) := secret.Exploit hook st.world
        match defect with
        | none => none
        | some p =>
          match heap1[p]? with
          | none => none
          | some record =>
            some { report := { st.report with
                     DefectCount := wrapInt (st.report.DefectCount + 1) },
                   heap := heap1.set p { record with AdditionalInfo := secretInfo },
                   world := world1,
                   fileDefects := fileDefects1,
                   exploited := st.exploited ++ [(secret, secretInfo)] }
      else
        some { st with heap := heap1, fileDefects := fileDefects1 }

/-- The method `Report.ReduceAndExploit(secrets, scanRoot)`, run on the store `heap` and
the world `world`.  The returned `FileDefects` is the field `fileDefects` of the result;
`none` is a panic. -/
def Report.ReduceAndExploit {σ : Type} (hook : ExploitHook σ) (this : Report) (heap : Heap)
    (world : σ) (secrets : List Secret) (scanRoot : GoString) : Option (ReduceState σ) :=
  secrets.foldlM (ReduceAndExploit.step hook scanRoot)
    { report := this, heap := heap, world := world, fileDefects := NewFileDefects,
      exploited := [] }

/-! ## Entropy -/

/-- The rune `utf8.RuneError` (U+FFFD). -/
def RuneError : Nat := 0xFFFD

/-- The decoding of the first rune of a string, as Go does it in a `range` over a string
(`utf8.DecodeRuneInString`): the rune and the number of bytes it takes.  A byte that does
not start a well-formed UTF-8 sequence gives `RuneError` and the size 1. -/
def DecodeRuneInString (s : GoString) : Nat × Nat :=
  match s with
  | [] => (RuneError, 0)
  | b0 :: rest =>
    let s0 := b0.toNat
    if s0 < 0x80 then (s0, 1)
    else if s0 < 0xC2 ∨ 0xF4 < s0 then (RuneError, 1)
    else
      let sz := if s0 < 0xE0 then 2 else if s0 < 0xF0 then 3 else 4
      let lo := if s0 = 0xE0 then 0xA0 else if s0 = 0xF0 then 0x90 else 0x80
      let hi := if s0 = 0xED then 0x9F else if s0 = 0xF4 then 0x8F else 0xBF
      if s.length < sz then (RuneError, 1)
      else
        match rest with
        | [] => (RuneError, 1)
        | b1 :: rest1 =>
          let s1 := b1.toNat
          if s1 < lo ∨ hi < s1 then (RuneError, 1)
          else if sz ≤ 2 then ((s0 % 32) * 64 + s1 % 64, 2)
          else
            match rest1 with
            | [] => (RuneError, 1)
            | b2 :: rest2 =>
              let s2 := b2.toNat
              if s2 < 0x80 ∨ 0xBF < s2 then (RuneError, 1)
              else if sz ≤ 3 then ((s0 % 16) * 4096 + (s1 % 64) * 64 + s2 % 64, 3)
              else
                match rest2 with
                | [] => (RuneError, 1)
                | b3 :: _ =>
                  let s3 := b3.toNat
                  if s3 < 0x80 ∨ 0xBF < s3 then (RuneError, 1)
                  else
                    ((s0 % 8) * 262144 + (s1 % 64) * 4096 + (s2 % 64) * 64 + s3 % 64, 4)

/-- The runes a `range` loop over the string visits, in order; `fuel` bounds the number
of iterations (every iteration consumes at least one byte). -/
def runesAux : Nat → GoString → List Nat
  | 0, _ => []
  | fuel + 1, s =>
    if s = [] then []
    else (DecodeRuneInString s).1 :: runesAux fuel (s.drop (DecodeRuneInString s).2)

/-- The runes of a string. -/
def runes (s : GoString) : List Nat :=
  runesAux s.length s

/-- The statement `m[r]++` on a map from runes to numbers, the map being the list of its
entries in the order in which the keys were first written; a missing key reads as 0. -/
def incrementCount {F : Type} [Field F] (m : List (Nat × F)) (r : Nat) : List (Nat × F) :=
  if r ∈ m.map Prod.fst then
    m.map (fun entry => if entry.1 = r then (entry.1, entry.2 + 1) else entry)
  else
    m ++ [(r, 0 + 1)]

/-- The function `Entropy(s)`.  The arithmetic of `float64` is a parameter: the numbers
are the elements of a field `F` and `Log2` stands for `math.Log2`; with the real numbers
and the logarithm to base 2 this is the real-valued formula the code computes.  The loop
over the map visits the entries in list order (the order Go takes is unspecified; a sum
of real numbers does not depend on it). -/
def Entropy {F : Type} [Field F] (Log2 : F → F) (s : GoString) : F :=
  let m : List (Nat × F) := (runes s).foldl incrementCount []
  let hm : F := m.foldl (fun hm entry => hm + entry.2 * Log2 entry.2) 0
  let l : F := (s.length : F)
  Log2 l - hm / l

/-! ## Fingerprint of a secret -/

/-- One digit of `hex.EncodeToString`: `0`..`9`, `a`..`f`. -/
def hexDigit (n : Nat) : UInt8 :=
  if n < 10 then UInt8.ofNat (48 + n) else UInt8.ofNat (87 + n)

/-- The function `hex.EncodeToString`. -/
def EncodeToString (src : List UInt8) : GoString :=
  src.flatMap (fun b => [hexDigit (b.toNat / 16), hexDigit (b.toNat % 16)])

/-- The method `Secret.setID`.  The digest of package `crypto/md5` (not part of the
repository) is the parameter `md5Sum`: the bytes `hash.Sum(nil)` after `hash.Write(data)`
on a new hash. -/
def Secret.setID (md5Sum : List UInt8 → List UInt8) (this : Secret) : Secret :=
  { this with ID := EncodeToString (md5Sum (this.FileName ++ this.Value)) }

/-- The function `NewSecret`. -/
def NewSecret (md5Sum : List UInt8 → List UInt8) (fileName secretValue : GoString)
    (lineNumber : Int) (rule : Rule) : Secret :=
  Secret.setID md5Sum
    { FileName := fileName, Value := secretValue, LineNumber := lineNumber, Rule := rule,
      ID := [] }

/-! ## Package main: the scan parameters -/

/-- The CLI parameters. -/
structure ScanParameters where
  configFilename : GoString
  accessToken : GoString
  outputDir : GoString
  githubHostname : GoString
  repoName : GoString
  lastModifiedScanCutoff : Int
  localScanDir : GoString
  debugPrintSecrets : Bool

/-- The values the flags are declared with (`StringVar`, `IntVar`, `BoolVar`): every
string is empty but the host name `github.com`, the cutoff is 0, the debug flag false. -/
def flagDefaults : ScanParameters :=
  { configFilename := [], accessToken := [], outputDir := [],
    githubHostname := [103, 105, 116, 104, 117, 98, 46, 99, 111, 109],
    repoName := [], lastModifiedScanCutoff := 0, localScanDir := [],
    debugPrintSecrets := false }

/-- What `flagset.Parse(cliArguments)` of package `flag` (not part of the repository) does
on a flag set whose variables hold `defaults`: it returns nil with the variables set, or
returns an error, or ends the process (the flag set is created with
`flag.ExitOnError`). -/
inductive FlagParse where
  | parsed (scanParameters : ScanParameters)
  | failed (scanParameters : ScanParameters) (message : GoString)
  | exited

/-- What `os.Stat(name)` followed by `os.IsNotExist(err)` gives: no error, an error for
which `os.IsNotExist` is true, or another error. -/
inductive StatResult where
  | ok
  | notExist (message : GoString)
  | otherError (message : GoString)

/-- The errors `initializeScanParameters` returns: one value for each `errors.New` of the
function (with the message of the error it wraps), and the error of `os.Stat` that stays
in the result variable `err` when `os.IsNotExist` is false. -/
inductive ParameterError where
  | failedParsingFlagset (cause : GoString)
  | failedToInitializeOutputDirectory (cause : GoString)
  | outputDirectoryDoesntExist (cause : GoString)
  | configurationFileNotSpecified
  | accessTokenNotSpecified
  | invalidRepoName
  | invalidLastModifiedCutoff
  | statError (cause : GoString)

/-- The function `strings.Split(s, sep)` for a separator of one byte. -/
def Split (sep : UInt8) : GoString → List GoString
  | [] => [[]]
  | b :: rest =>
    if b = sep then [] :: Split sep rest
    else
      match Split sep rest with
      | [] => [[b]]
      | part :: parts => (b :: part) :: parts

/-- The checks of `initializeScanParameters` from `configFilename == ""` on; `err` is the
value the result variable `err` holds when they start. -/
def validateScanParameters (scanParameters : ScanParameters) (err : Option ParameterError) :
    ScanParameters × Option ParameterError :=
  if scanParameters.configFilename = [] then
    (scanParameters, some ParameterError.configurationFileNotSpecified)
  else if scanParameters.localScanDir = [] then
    if scanParameters.accessToken = [] then
      (scanParameters, some ParameterError.accessTokenNotSpecified)
    else if scanParameters.repoName ≠ [] ∧
        (Split 47 scanParameters.repoName).length ≠ 2 ∧
        (Split 47 scanParameters.repoName).length ≠ 3 then
      (scanParameters, some ParameterError.invalidRepoName)
    else if scanParameters.lastModifiedScanCutoff < 0 then
      (scanParameters, some ParameterError.invalidLastModifiedCutoff)
    else
      (scanParameters, err)
  else
    (scanParameters, err)

/-- The function `initializeScanParameters(cliArguments)`, returning
`(scanParameters, err)`; `none` when the process ends inside `flagset.Parse`.  The
parameters are the calls into the Go library: `flagParse` for `flagset.Parse`, `Getwd`
for the result of `os.Getwd()`, `Stat` for `os.Stat`. -/
def initializeScanParameters (flagParse : ScanParameters → List GoString → FlagParse)
    (Getwd : Except GoString GoString) (Stat : GoString → StatResult)
    (cliArguments : List GoString) : Option (ScanParameters × Option ParameterError) :=
  match flagParse flagDefaults cliArguments with
  | FlagParse.exited => none
  | FlagParse.failed scanParameters message =>
    some (scanParameters, some (ParameterError.failedParsingFlagset message))
  | FlagParse.parsed scanParameters =>
    if scanParameters.outputDir = [] then
      match Getwd with
      | Except.error message =>
        some (scanParameters,
          some (ParameterError.failedToInitializeOutputDirectory message))
      | Except.ok dir =>
        some (validateScanParameters { scanParameters with outputDir := dir } none)
    else
      match Stat scanParameters.outputDir with
      | StatResult.notExist message =>
        some (scanParameters, some (ParameterError.outputDirectoryDoesntExist message))
      | StatResult.ok => some (validateScanParameters scanParameters none)
      | StatResult.otherError message =>
        some (validateScanParameters scanParameters (some (ParameterError.statError message)))

/-! ## Sequences of calls of AddInstance -/

/-- A sequence of calls `AddInstance(fileName, secret)` on one `FileDefects`, each on the
store and the receiver the previous call left; `none` when a call panics. -/
def AddInstances (calls : List (GoString × Secret)) (heap : Heap) (this : FileDefects) :
    Option (Heap × FileDefects) :=
  calls.foldlM
    (fun st call => (st.2.AddInstance st.1 call.1 call.2).map (fun r => (r.1, r.2.1)))
    (heap, this)

/-! ## Vocabulary of the properties -/

/-- The file name `file` lies under the directory `root`: it is `root`, one separator
byte and a relative name. -/
def liesUnder (root file : GoString) : Prop :=
  ∃ sep rel, file = root ++ sep :: rel

/-- The pair (relative file name, fingerprint) of a secret. -/
def Secret.key (scanRoot : GoString) (s : Secret) : Option GoString × GoString :=
  (GetRelativeFilename s.FileName scanRoot, s.ID)

/-- The elements of a list whose key occurs for the first time, in the order of the
list. -/
def firstOccurrences {α κ : Type} [DecidableEq κ] (key : α → κ) (l : List α) : List α :=
  l.foldl (fun acc a => if key a ∈ acc.map key then acc else acc ++ [a]) []

/-- The line numbers of the secrets with the pair `k`, in the order of the list. -/
def linesOf (scanRoot : GoString) (secrets : List Secret)
    (k : Option GoString × GoString) : List Int :=
  (secrets.filter (fun s => s.key scanRoot = k)).map (fun s => s.LineNumber)

/-- The calls of `Exploit` on the secrets of a list, one after the other from the world
`world`: each secret with the string its call returned, and the world after the last
call. -/
def exploitAll {σ : Type} (hook : ExploitHook σ) (world : σ) (l : List Secret) :
    List (Secret × GoString) × σ :=
  l.foldl (fun acc s => ((acc.1 ++ [(s, (s.Exploit hook acc.2).1)]), (s.Exploit hook acc.2).2))
    ([], world)

/-- The Defect record of a first occurrence `c.1` whose call of `Exploit` returned `c.2`,
after the secrets of the list `secrets` have been processed. -/
def recordOf (scanRoot : GoString) (secrets : List Secret) (c : Secret × GoString) : Defect :=
  { Lines := linesOf scanRoot secrets (c.1.key scanRoot), secretID := c.1.ID,
    Tag := c.1.Rule.Tag, AdditionalInfo := c.2 }

/-- The addresses `base + k` of the first occurrences (number `k` in the list `firsts`)
whose relative file name is the name of `file`. -/
def addressesOf (base : Nat) (scanRoot : GoString) (firsts : List Secret) (file : File) :
    List Ptr :=
  (firsts.enum.filter
      (fun ks => GetRelativeFilename ks.2.FileName scanRoot = some file.Filename)).map
    (fun ks => base + ks.1)

/-- The map entry of `file`: absent when no first occurrence lies in the file. -/
def entryOf (base : Nat) (scanRoot : GoString) (firsts : List Secret) (file : File) :
    Option (List Ptr) :=
  if addressesOf base scanRoot firsts file = [] then none
  else some (addressesOf base scanRoot firsts file)

/-- The value of a Go `int` counter that held `count` after `n` statements `count++`. -/
def countAfter (count : Int) (n : Nat) : Int :=
  if n = 0 then count else wrapInt (count + n)

/-- The state `ReduceAndExploit` ends in, in closed form: one record per first occurrence
of a pair (relative file name, fingerprint), allocated in the order of the first
occurrences after the records of `heap`. -/
def reduceResult {σ : Type} (hook : ExploitHook σ) (this : Report) (heap : Heap) (world : σ)
    (secrets : List Secret) (scanRoot : GoString) : ReduceState σ :=
  { report := { this with
      DefectCount :=
        countAfter this.DefectCount (firstOccurrences (Secret.key scanRoot) secrets).length },
    heap := heap ++
      (exploitAll hook world (firstOccurrences (Secret.key scanRoot) secrets)).1.map
        (recordOf scanRoot secrets),
    world := (exploitAll hook world (firstOccurrences (Secret.key scanRoot) secrets)).2,
    fileDefects :=
      { Defects := entryOf heap.length scanRoot (firstOccurrences (Secret.key scanRoot) secrets) },
    exploited := (exploitAll hook world (firstOccurrences (Secret.key scanRoot) secrets)).1 }

/-- The files (by relative name) in which the secrets of a list lie. -/
def relativeFiles (scanRoot : GoString) (secrets : List Secret) : Finset File :=
  (secrets.filterMap
    (fun s => (GetRelativeFilename s.FileName scanRoot).map (fun rel => { Filename := rel }))).toFinset

/-! ## Concrete data used to evaluate the definitions -/

/-- A rule with no regular expression, tag `t` and no verification function. -/
def exRule : Rule :=
  { Target := [], Except := [], Entropy := GoFloat.fin 0, Tag := [116], ExploitFn := [] }

/-- A secret of the file `r/f` with fingerprint `id`, found on line `line`. -/
def exSecret (id : GoString) (line : Int) : Secret :=
  { FileName := [114, 47, 102], Value := [118], LineNumber := line, Rule := exRule, ID := id }

/-- A store with one record, of fingerprint `[1]`, seen on line 3. -/
def exHeap : Heap :=
  [{ Lines := [3], secretID := [1], Tag := [116], AdditionalInfo := [] }]

/-- The file `f` lists the record at address 0; no other file has a list. -/
def exFileDefects : FileDefects :=
  { Defects := fun file => if file = { Filename := [102] } then some [0] else none }

/-- A hook that succeeds and returns the secret value as its output. -/
def exHook : ExploitHook Unit :=
  { Run := fun _ value _ world => ((value, none), world) }

/-- Three secrets of the file `r/f`: fingerprint `[1]` on line 3, fingerprint `[2]` on
line 3, and fingerprint `[1]` again on line 7. -/
def exSecrets : List Secret :=
  [exSecret [1] 3, exSecret [2] 3, exSecret [1] 7]

/-- A rule that names the verification function `a`. -/
def exActiveRule : Rule :=
  { Target := [], Except := [], Entropy := GoFloat.fin 0, Tag := [116], ExploitFn := [97] }

/-- A hook on a world that counts the calls: the call number `n` succeeds with output
`[n]` when `n` is even and fails when `n` is odd. -/
def exCountingHook : ExploitHook Nat :=
  { Run := fun _ _ _ n =>
      ((([UInt8.ofNat n] : GoString), if n % 2 = 0 then none else some [101]), n + 1) }

/-- Four secrets of the file `r/f` found by `exActiveRule`: fingerprints `[1]`, `[2]`,
`[1]` again and `[3]`, on lines 3, 4, 7 and 9. -/
def exActiveSecrets : List Secret :=
  [{ FileName := [114, 47, 102], Value := [118], LineNumber := 3, Rule := exActiveRule,
     ID := [1] },
   { FileName := [114, 47, 102], Value := [119], LineNumber := 4, Rule := exActiveRule,
     ID := [2] },
   { FileName := [114, 47, 102], Value := [118], LineNumber := 7, Rule := exActiveRule,
     ID := [1] },
   { FileName := [114, 47, 102], Value := [120], LineNumber := 9, Rule := exActiveRule,
     ID := [3] }]

/-- A regular expression that matches every line once, with the whole match `x` and no
capture group (such as the pattern `x` on a line holding one `x`). -/
def exRegexp : Regexp :=
  { MatchString := fun _ => true,
    FindAllStringSubmatch := fun _ => [fun _ => [120]],
    FindAllString := fun _ => [[120]],
    SubexpNames := [[]] }

/-- A rule whose `Target` and `Except` both match, with the entropy check disabled. -/
def exVetoRule : Rule :=
  { Target := [exRegexp], Except := [exRegexp], Entropy := GoFloat.fin 0, Tag := [116],
    ExploitFn := [] }

/-- A rule whose `Target` matches, with no `Except` and the entropy threshold 3. -/
def exEntropyRule : Rule :=
  { Target := [exRegexp], Except := [], Entropy := GoFloat.fin 3, Tag := [116],
    ExploitFn := [] }

/-- A rule whose `Target` matches, with no `Except` and the entropy check disabled. -/
def exPlainRule : Rule :=
  { Target := [exRegexp], Except := [], Entropy := GoFloat.fin 0, Tag := [116],
    ExploitFn := [] }

/-- The entropy of the one-character candidate `x` is 0. -/
def exEntropy : GoString → GoFloat :=
  fun _ => GoFloat.fin 0

/-- A report with no repository and `n` defects counted. -/
def exReport (n : Int) : Report :=
  { Repositories := fun _ => none, DefectCount := n, outputDir := [] }

/-- The regular expression of the one-byte pattern `c` (a literal character below 128):
it matches a text that holds the byte, every match is that byte, and it has no capture
group (`SubexpNames()` is the one empty name of the whole match). -/
def exLiteral (c : UInt8) : Regexp :=
  { MatchString := fun text => text.contains c,
    FindAllStringSubmatch := fun text => (text.filter (fun b => b == c)).map (fun b _ => [b]),
    FindAllString := fun text => (text.filter (fun b => b == c)).map (fun b => [b]),
    SubexpNames := [[]] }

/-- A rule with the two `Target` patterns `a` and `b`, no `Except` and the entropy check
disabled. -/
def exTwoTargetsRule : Rule :=
  { Target := [exLiteral 97, exLiteral 98], Except := [], Entropy := GoFloat.fin 0,
    Tag := [116], ExploitFn := [] }

/-- A stand-in for `flagset.Parse`: the empty argument list leaves the defaults, any other
list sets a rule-config file, an access token and the repo name `bad`. -/
def exFlagParse : ScanParameters → List GoString → FlagParse :=
  fun defaults cliArguments =>
    if cliArguments = [] then FlagParse.parsed defaults
    else FlagParse.parsed
      { defaults with configFilename := [99], accessToken := [116], repoName := [98, 97, 100] }

/-- Two secrets of the file `r/f` with the same fingerprint `[1]`: the first found on
line 3 by `exActiveRule` (tag `t`, function `a`), the second on line 8 by a rule with the
tag `u` and no function. -/
def exMixedSecrets : List Secret :=
  [{ FileName := [114, 47, 102], Value := [118], LineNumber := 3, Rule := exActiveRule,
     ID := [1] },
   { FileName := [114, 47, 102], Value := [118], LineNumber := 8,
     Rule := { Target := [], Except := [], Entropy := GoFloat.fin 0, Tag := [117],
               ExploitFn := [] },
     ID := [1] }]

/-! ## The loop of AddInstance -/

/-- The loop finds nothing when every address of the list holds a record with another
fingerprint. -/
theorem AddInstance.loop_absent (secret : Secret) (heap : Heap) (ptrs : List Ptr)
    (h : ∀ q ∈ ptrs, ∃ e, heap[q]? = some e ∧ e.secretID ≠ secret.ID) :
    AddInstance.loop secret heap ptrs = some (heap, true) := by
  induction ptrs with
  | nil => rfl
  | cons p rest ih =>
    obtain ⟨e, he, hne⟩ := h p (List.mem_cons_self _ _)
    have hrest := ih (fun q hq => h q (List.mem_cons_of_mem _ hq))
    simp only [AddInstance.loop, he, if_neg hne, hrest]

/-- The loop stops at the first address of the list whose record has the fingerprint of
the secret, and extends the lines of that record. -/
theorem AddInstance.loop_present (secret : Secret) (heap : Heap) (ptrs : List Ptr)
    (hvalid : ∀ q ∈ ptrs, q < heap.length)
    (hfound : ∃ p ∈ ptrs, ∃ d, heap[p]? = some d ∧ d.secretID = secret.ID) :
    ∃ pre p post d, ptrs = pre ++ p :: post ∧
      (∀ q ∈ pre, ∃ e, heap[q]? = some e ∧ e.secretID ≠ secret.ID) ∧
      heap[p]? = some d ∧ d.secretID = secret.ID ∧
      AddInstance.loop secret heap ptrs =
        some (heap.set p { d with Lines := d.Lines ++ [secret.LineNumber] }, false) := by
  induction ptrs with
  | nil =>
    obtain ⟨p, hp, _⟩ := hfound
    cases hp
  | cons a rest ih =>
    have ha : a < heap.length := hvalid a (List.mem_cons_self _ _)
    have hget : heap[a]? = some heap[a] := List.getElem?_eq_getElem ha
    by_cases hid : (heap[a]).secretID = secret.ID
    · refine ⟨[], a, rest, heap[a], rfl, ?_, hget, hid, ?_⟩
      · intro q hq
        cases hq
      · simp only [AddInstance.loop, hget, if_pos hid]
    · have hfound1 : ∃ p ∈ rest, ∃ d, heap[p]? = some d ∧ d.secretID = secret.ID := by
        obtain ⟨p, hp, d, hd, hdid⟩ := hfound
        rcases List.mem_cons.mp hp with rfl | hp
        · rw [hget] at hd
          cases hd
          exact absurd hdid hid
        · exact ⟨p, hp, d, hd, hdid⟩
      obtain ⟨pre, p, post, d, hsplit, hpre, hd, hdid, hloop⟩ :=
        ih (fun q hq => hvalid q (List.mem_cons_of_mem _ hq)) hfound1
      refine ⟨a :: pre, p, post, d, by rw [hsplit]; rfl, ?_, hd, hdid, ?_⟩
      · intro q hq
        rcases List.mem_cons.mp hq with rfl | hq
        · exact ⟨heap[q], hget, hid⟩
        · exact hpre q hq
      · simp only [AddInstance.loop, hget, if_neg hid, hloop]

/-! ## AddInstance -/

/-- The record `AddInstance` allocates for a secret. -/
theorem AddInstance_absent (this : FileDefects) (heap : Heap) (fileName : GoString)
    (secret : Secret)
    (habsent : ∀ ptrs, this.Defects { Filename := fileName } = some ptrs →
      ∀ q ∈ ptrs, ∃ e, heap[q]? = some e ∧ e.secretID ≠ secret.ID) :
    this.AddInstance heap fileName secret =
      some (heap ++ [{ Lines := [secret.LineNumber], secretID := secret.ID,
                       Tag := secret.Rule.Tag, AdditionalInfo := [] }],
            { Defects := Function.update this.Defects { Filename := fileName }
                (some ((this.Defects { Filename := fileName }).getD [] ++ [heap.length])) },
            some heap.length, true) := by
  cases hfile : this.Defects { Filename := fileName } with
  | none =>
    simp [FileDefects.AddInstance, hfile]
  | some ptrs =>
    have hloop := AddInstance.loop_absent secret heap ptrs (habsent ptrs hfile)
    simp [FileDefects.AddInstance, hfile, hloop]

/-- When the list of the file holds a record with the fingerprint of the secret,
`AddInstance` extends the first such record and returns `(nil, false)`. -/
theorem AddInstance_present (this : FileDefects) (heap : Heap) (fileName : GoString)
    (secret : Secret) (ptrs : List Ptr)
    (hfile : this.Defects { Filename := fileName } = some ptrs)
    (hvalid : ∀ q ∈ ptrs, q < heap.length)
    (hfound : ∃ p ∈ ptrs, ∃ d, heap[p]? = some d ∧ d.secretID = secret.ID) :
    ∃ pre p post d, ptrs = pre ++ p :: post ∧
      (∀ q ∈ pre, ∃ e, heap[q]? = some e ∧ e.secretID ≠ secret.ID) ∧
      heap[p]? = some d ∧ d.secretID = secret.ID ∧
      this.AddInstance heap fileName secret =
        some (heap.set p { d with Lines := d.Lines ++ [secret.LineNumber] },
              this, none, false) := by
  obtain ⟨pre, p, post, d, hsplit, hpre, hd, hdid, hloop⟩ :=
    AddInstance.loop_present secret heap ptrs hvalid hfound
  refine ⟨pre, p, post, d, hsplit, hpre, hd, hdid, ?_⟩
  simp [FileDefects.AddInstance, hfile, hloop]

/-- Claim C1, evaluated on the code: the file `f` already lists a Defect with fingerprint
`[1]` (seen on line 3); `AddInstance` for a secret with that fingerprint on line 5
extends the record to lines 3 and 5 and returns `newDefect = false`, but the Defect it
returns is the nil pointer, not the record it extended. -/
theorem C1_AddInstance_repeat_returns_nil :
    (exFileDefects.AddInstance exHeap [102] (exSecret [1] 5)).map
        (fun r => (r.1, r.2.2.1, r.2.2.2)) =
      some ([{ Lines := [3, 5], secretID := [1], Tag := [116], AdditionalInfo := [] }],
            none, false) := by
  decide

/-- Claim C2: when the list of `fileName` holds a Defect with fingerprint `secret.ID` (and
only allocated records), `AddInstance` appends `secret.LineNumber` at the end of the
`Lines` of the first such Defect and changes nothing else: the receiver (every list of
every file) is the same, every other record of the store is the same, no record is
allocated, and `newDefect` is false.  In particular (second part) two calls with the same
file and fingerprint on lines `a` then `b`, made when the file has no Defect of that
fingerprint, leave the file's list with one more Defect, whose `Lines` is `[a, b]`. -/
theorem C2_AddInstance_repeat_appends_line :
    (∀ (this : FileDefects) (heap : Heap) (fileName : GoString) (secret : Secret)
        (ptrs : List Ptr),
      this.Defects { Filename := fileName } = some ptrs →
      (∀ q ∈ ptrs, q < heap.length) →
      (∃ p ∈ ptrs, ∃ d, heap[p]? = some d ∧ d.secretID = secret.ID) →
      ∃ pre p post d heap1,
        ptrs = pre ++ p :: post ∧
        (∀ q ∈ pre, ∃ e, heap[q]? = some e ∧ e.secretID ≠ secret.ID) ∧
        heap[p]? = some d ∧ d.secretID = secret.ID ∧
        this.AddInstance heap fileName secret = some (heap1, this, none, false) ∧
        heap1[p]? = some { d with Lines := d.Lines ++ [secret.LineNumber] } ∧
        (∀ q, q ≠ p → heap1[q]? = heap[q]?) ∧
        heap1.length = heap.length) ∧
    (∀ (this : FileDefects) (heap : Heap) (fileName : GoString) (s1 s2 : Secret),
      (∀ ptrs, this.Defects { Filename := fileName } = some ptrs →
        ∀ q ∈ ptrs, ∃ e, heap[q]? = some e ∧ e.secretID ≠ s1.ID) →
      s2.ID = s1.ID →
      ∃ heap1 fd1,
        this.AddInstance heap fileName s1 = some (heap1, fd1, some heap.length, true) ∧
        fd1.AddInstance heap1 fileName s2 =
          some (heap ++ [{ Lines := [s1.LineNumber, s2.LineNumber], secretID := s1.ID,
                           Tag := s1.Rule.Tag, AdditionalInfo := [] }],
                fd1, none, false) ∧
        fd1.Defects { Filename := fileName } =
          some ((this.Defects { Filename := fileName }).getD [] ++ [heap.length])) := by
  constructor
  · intro this heap fileName secret ptrs hfile hvalid hfound
    obtain ⟨pre, p, post, d, hsplit, hpre, hd, hdid, hadd⟩ :=
      AddInstance_present this heap fileName secret ptrs hfile hvalid hfound
    have hp : p < heap.length := hvalid p (by rw [hsplit]; simp)
    refine ⟨pre, p, post, d, _, hsplit, hpre, hd, hdid, hadd, ?_, ?_, ?_⟩
    · simp [List.getElem?_set, hp]
    · intro q hq
      simp [List.getElem?_set, Ne.symm hq]
    · simp
  · intro this heap fileName s1 s2 habsent hid
    have h1 := AddInstance_absent this heap fileName s1 habsent
    refine ⟨_, _, h1, ?_, ?_⟩
    · obtain ⟨pre, p, post, d, hsplit, hpre, hd, hdid, hadd⟩ :=
        AddInstance_present
          { Defects := Function.update this.Defects { Filename := fileName }
              (some ((this.Defects { Filename := fileName }).getD [] ++ [heap.length])) }
          (heap ++ [{ Lines := [s1.LineNumber], secretID := s1.ID, Tag := s1.Rule.Tag,
                      AdditionalInfo := [] }])
          fileName s2
          ((this.Defects { Filename := fileName }).getD [] ++ [heap.length])
          (by simp)
          (by
            intro q hq
            rcases List.mem_append.mp hq with hq | hq
            · cases hfile : this.Defects { Filename := fileName } with
              | none => simp [hfile] at hq
              | some ptrs =>
                simp only [hfile, Option.getD_some] at hq
                obtain ⟨e, he, _⟩ := habsent ptrs hfile q hq
                obtain ⟨hlt, _⟩ := List.getElem?_eq_some_iff.mp he
                rw [List.length_append, List.length_singleton]
                exact Nat.lt_succ_of_lt hlt
            · simp only [List.mem_singleton] at hq
              simp [hq])
          ⟨heap.length, by simp,
            { Lines := [s1.LineNumber], secretID := s1.ID, Tag := s1.Rule.Tag,
              AdditionalInfo := [] }, by simp, hid.symm⟩
      have hp : p = heap.length := by
        by_contra hne
        have hmem : p ∈ (this.Defects { Filename := fileName }).getD [] := by
          have : p ∈ (this.Defects { Filename := fileName }).getD [] ++ [heap.length] := by
            rw [hsplit]; simp
          rcases List.mem_append.mp this with h | h
          · exact h
          · exact absurd (List.mem_singleton.mp h) hne
        cases hfile : this.Defects { Filename := fileName } with
        | none => simp [hfile] at hmem
        | some ptrs =>
          simp only [hfile, Option.getD_some] at hmem
          obtain ⟨e, he, hne1⟩ := habsent ptrs hfile p hmem
          obtain ⟨hlt, _⟩ := List.getElem?_eq_some_iff.mp he
          rw [List.getElem?_append_left hlt, he] at hd
          cases hd
          exact hne1 (hdid.trans hid)
      subst hp
      rw [hadd]
      simp at hd
      subst hd
      simp
    · simp

/-- The list of the file `f` in `exFileDefects` holds no record with fingerprint `[2]`. -/
theorem exFileDefects_absent :
    ∀ ptrs, exFileDefects.Defects { Filename := [102] } = some ptrs →
      ∀ q ∈ ptrs, ∃ e, exHeap[q]? = some e ∧ e.secretID ≠ (exSecret [2] 4).ID := by
  intro ptrs hptrs q hq
  have h0 : ptrs = [0] := by
    have : some [0] = some ptrs := hptrs
    exact (Option.some.inj this).symm
  subst h0
  rw [List.mem_singleton] at hq
  subst hq
  exact ⟨_, rfl, by decide⟩

/-- Witness of C2: a repeat of fingerprint `[1]` on line 5 in the file `f` of
`exFileDefects`, and the two calls for fingerprint `[2]` on lines 4 and 9. -/
theorem C2_AddInstance_repeat_appends_line_witness :
    (exFileDefects.Defects { Filename := [102] } = some [0] ∧
      (∀ q ∈ [0], q < exHeap.length) ∧
      (∃ p ∈ [0], ∃ d, exHeap[p]? = some d ∧ d.secretID = (exSecret [1] 5).ID) ∧
      ∃ pre p post d heap1,
        [0] = pre ++ p :: post ∧
        (∀ q ∈ pre, ∃ e, exHeap[q]? = some e ∧ e.secretID ≠ (exSecret [1] 5).ID) ∧
        exHeap[p]? = some d ∧ d.secretID = (exSecret [1] 5).ID ∧
        exFileDefects.AddInstance exHeap [102] (exSecret [1] 5) =
          some (heap1, exFileDefects, none, false) ∧
        heap1[p]? = some { d with Lines := d.Lines ++ [(exSecret [1] 5).LineNumber] } ∧
        (∀ q, q ≠ p → heap1[q]? = exHeap[q]?) ∧
        heap1.length = exHeap.length) ∧
    ((exSecret [2] 9).ID = (exSecret [2] 4).ID ∧
      ∃ heap1 fd1,
        exFileDefects.AddInstance exHeap [102] (exSecret [2] 4) =
          some (heap1, fd1, some exHeap.length, true) ∧
        fd1.AddInstance heap1 [102] (exSecret [2] 9) =
          some (exHeap ++ [{ Lines := [(exSecret [2] 4).LineNumber, (exSecret [2] 9).LineNumber],
                             secretID := (exSecret [2] 4).ID,
                             Tag := (exSecret [2] 4).Rule.Tag, AdditionalInfo := [] }],
                fd1, none, false) ∧
        fd1.Defects { Filename := [102] } =
          some ((exFileDefects.Defects { Filename := [102] }).getD [] ++ [exHeap.length])) :=
  ⟨⟨rfl, by decide, ⟨0, by decide, _, rfl, rfl⟩,
      C2_AddInstance_repeat_appends_line.1 exFileDefects exHeap [102] (exSecret [1] 5) [0]
        rfl (by decide) ⟨0, by decide, _, rfl, rfl⟩⟩,
    ⟨rfl,
      C2_AddInstance_repeat_appends_line.2 exFileDefects exHeap [102] (exSecret [2] 4)
        (exSecret [2] 9) exFileDefects_absent rfl⟩⟩

/-- Claim C3: when `fileName` has no list yet, or its list holds only records with another
fingerprint, `AddInstance` allocates a Defect with fingerprint `secret.ID`,
`Tag = secret.Rule.Tag`, `Lines = [secret.LineNumber]` and empty `AdditionalInfo`, appends
its address at the end of the list of `fileName`, leaves every other list and every record
allocated before as they were, and returns the new Defect with `newDefect = true`. -/
theorem C3_AddInstance_first_occurrence (this : FileDefects) (heap : Heap)
    (fileName : GoString) (secret : Secret)
    (habsent : ∀ ptrs, this.Defects { Filename := fileName } = some ptrs →
      ∀ q ∈ ptrs, ∃ e, heap[q]? = some e ∧ e.secretID ≠ secret.ID) :
    ∃ heap1 fd1 p,
      this.AddInstance heap fileName secret = some (heap1, fd1, some p, true) ∧
      heap[p]? = none ∧
      heap1[p]? = some { secretID := secret.ID, Tag := secret.Rule.Tag,
                         Lines := [secret.LineNumber], AdditionalInfo := [] } ∧
      fd1.Defects { Filename := fileName } =
        some ((this.Defects { Filename := fileName }).getD [] ++ [p]) ∧
      (∀ file, file ≠ { Filename := fileName } → fd1.Defects file = this.Defects file) ∧
      (∀ q, q ≠ p → heap1[q]? = heap[q]?) := by
  refine ⟨_, _, heap.length, AddInstance_absent this heap fileName secret habsent,
    by simp, by simp, by simp, ?_, ?_⟩
  · intro file hfile
    simp [Function.update_noteq hfile]
  · intro q hq
    rcases Nat.lt_or_gt_of_ne hq with hlt | hgt
    · rw [List.getElem?_append_left hlt]
    · rw [List.getElem?_eq_none (by simp; omega), List.getElem?_eq_none (by omega)]

/-- Witness of C3: the file `f` of `exFileDefects` holds one Defect, of fingerprint `[1]`;
a secret of fingerprint `[2]` is a first occurrence. -/
theorem C3_AddInstance_first_occurrence_witness :
    (∀ ptrs, exFileDefects.Defects { Filename := [102] } = some ptrs →
      ∀ q ∈ ptrs, ∃ e, exHeap[q]? = some e ∧ e.secretID ≠ (exSecret [2] 4).ID) ∧
    ∃ heap1 fd1 p,
      exFileDefects.AddInstance exHeap [102] (exSecret [2] 4) = some (heap1, fd1, some p, true) ∧
      exHeap[p]? = none ∧
      heap1[p]? = some { secretID := (exSecret [2] 4).ID, Tag := (exSecret [2] 4).Rule.Tag,
                         Lines := [(exSecret [2] 4).LineNumber], AdditionalInfo := [] } ∧
      fd1.Defects { Filename := [102] } =
        some ((exFileDefects.Defects { Filename := [102] }).getD [] ++ [p]) ∧
      (∀ file, file ≠ { Filename := [102] } → fd1.Defects file = exFileDefects.Defects file) ∧
      (∀ q, q ≠ p → heap1[q]? = exHeap[q]?) :=
  ⟨exFileDefects_absent,
    C3_AddInstance_first_occurrence exFileDefects exHeap [102] (exSecret [2] 4)
      exFileDefects_absent⟩

/-! ## First occurrences -/

theorem firstOccurrences_concat {α κ : Type} [DecidableEq κ] (key : α → κ) (l : List α)
    (a : α) :
    firstOccurrences key (l ++ [a]) =
      if key a ∈ (firstOccurrences key l).map key then firstOccurrences key l
      else firstOccurrences key l ++ [a] := by
  simp [firstOccurrences, List.foldl_append]

theorem mem_map_firstOccurrences {α κ : Type} [DecidableEq κ] (key : α → κ) (l : List α)
    (k : κ) : k ∈ (firstOccurrences key l).map key ↔ k ∈ l.map key := by
  induction l using List.reverseRecOn with
  | nil => simp [firstOccurrences]
  | append_singleton l a ih =>
    rw [firstOccurrences_concat]
    by_cases h : key a ∈ (firstOccurrences key l).map key
    · rw [if_pos h, ih, List.map_append, List.mem_append]
      constructor
      · exact Or.inl
      · rintro (hk | hk)
        · exact hk
        · simp only [List.map_cons, List.map_nil, List.mem_singleton] at hk
          subst hk
          exact ih.mp h
    · rw [if_neg h, List.map_append, List.map_append, List.mem_append, List.mem_append, ih]

theorem firstOccurrences_nodup {α κ : Type} [DecidableEq κ] (key : α → κ) (l : List α) :
    ((firstOccurrences key l).map key).Nodup := by
  induction l using List.reverseRecOn with
  | nil => simp [firstOccurrences]
  | append_singleton l a ih =>
    rw [firstOccurrences_concat]
    by_cases h : key a ∈ (firstOccurrences key l).map key
    · rw [if_pos h]
      exact ih
    · rw [if_neg h, List.map_append]
      refine List.Nodup.append ih (by simp) ?_
      intro k hk hk1
      simp only [List.map_cons, List.map_nil, List.mem_singleton] at hk1
      exact h (hk1 ▸ hk)

theorem firstOccurrences_sublist {α κ : Type} [DecidableEq κ] (key : α → κ) (l : List α) :
    (firstOccurrences key l).Sublist l := by
  induction l using List.reverseRecOn with
  | nil => simp [firstOccurrences]
  | append_singleton l a ih =>
    rw [firstOccurrences_concat]
    by_cases h : key a ∈ (firstOccurrences key l).map key
    · rw [if_pos h]
      exact ih.trans (List.sublist_append_left _ _)
    · rw [if_neg h]
      exact List.Sublist.append ih (List.Sublist.refl _)

theorem firstOccurrences_append_left {α κ : Type} [DecidableEq κ] (key : α → κ)
    (l1 l2 : List α) :
    ∃ r, firstOccurrences key (l1 ++ l2) = firstOccurrences key l1 ++ r := by
  induction l2 using List.reverseRecOn with
  | nil => exact ⟨[], by simp⟩
  | append_singleton l a ih =>
    obtain ⟨r, hr⟩ := ih
    rw [← List.append_assoc, firstOccurrences_concat]
    by_cases hmem : key a ∈ (firstOccurrences key (l1 ++ l)).map key
    · rw [if_pos hmem]
      exact ⟨r, hr⟩
    · rw [if_neg hmem, hr]
      exact ⟨r ++ [a], by simp⟩

/-! ## Lines and calls -/

theorem linesOf_concat (scanRoot : GoString) (l : List Secret) (s : Secret)
    (k : Option GoString × GoString) :
    linesOf scanRoot (l ++ [s]) k =
      linesOf scanRoot l k ++ (if s.key scanRoot = k then [s.LineNumber] else []) := by
  by_cases h : s.key scanRoot = k
  · simp [linesOf, List.filter_append, List.filter_cons, h]
  · simp [linesOf, List.filter_append, List.filter_cons, h]

theorem linesOf_eq_nil (scanRoot : GoString) (l : List Secret)
    (k : Option GoString × GoString) (h : k ∉ l.map (Secret.key scanRoot)) :
    linesOf scanRoot l k = [] := by
  simp only [linesOf, List.map_eq_nil_iff, List.filter_eq_nil_iff]
  intro s hs hk
  exact h (List.mem_map.mpr ⟨s, hs, of_decide_eq_true hk⟩)

theorem exploitAll_concat {σ : Type} (hook : ExploitHook σ) (world : σ) (l : List Secret)
    (s : Secret) :
    exploitAll hook world (l ++ [s]) =
      ((exploitAll hook world l).1 ++ [(s, (s.Exploit hook (exploitAll hook world l).2).1)],
        (s.Exploit hook (exploitAll hook world l).2).2) := by
  simp [exploitAll, List.foldl_append]

theorem exploitAll_map_fst {σ : Type} (hook : ExploitHook σ) (world : σ) (l : List Secret) :
    (exploitAll hook world l).1.map Prod.fst = l := by
  induction l using List.reverseRecOn with
  | nil => simp [exploitAll]
  | append_singleton l s ih => rw [exploitAll_concat]; simp [ih]

theorem exploitAll_length {σ : Type} (hook : ExploitHook σ) (world : σ) (l : List Secret) :
    (exploitAll hook world l).1.length = l.length := by
  have h := congrArg List.length (exploitAll_map_fst hook world l)
  simpa using h

/-! ## Addresses -/

theorem mem_addressesOf (base : Nat) (scanRoot : GoString) (firsts : List Secret)
    (file : File) (p : Ptr) :
    p ∈ addressesOf base scanRoot firsts file ↔
      ∃ k s, firsts[k]? = some s ∧
        GetRelativeFilename s.FileName scanRoot = some file.Filename ∧ p = base + k := by
  simp only [addressesOf, List.mem_map, List.mem_filter, decide_eq_true_eq]
  constructor
  · rintro ⟨⟨k, s⟩, ⟨hmem, hrel⟩, rfl⟩
    exact ⟨k, s, List.mk_mem_enum_iff_getElem?.mp hmem, hrel, rfl⟩
  · rintro ⟨k, s, hk, hrel, rfl⟩
    exact ⟨(k, s), ⟨List.mk_mem_enum_iff_getElem?.mpr hk, hrel⟩, rfl⟩

theorem addressesOf_concat (base : Nat) (scanRoot : GoString) (firsts : List Secret)
    (s : Secret) (file : File) :
    addressesOf base scanRoot (firsts ++ [s]) file =
      addressesOf base scanRoot firsts file ++
        (if GetRelativeFilename s.FileName scanRoot = some file.Filename
          then [base + firsts.length] else []) := by
  by_cases h : GetRelativeFilename s.FileName scanRoot = some file.Filename
  · simp [addressesOf, List.enum_append, List.enumFrom_singleton, List.filter_append,
      List.filter_cons, h]
  · simp [addressesOf, List.enum_append, List.enumFrom_singleton, List.filter_append,
      List.filter_cons, h]

theorem entryOf_getD (base : Nat) (scanRoot : GoString) (firsts : List Secret)
    (file : File) :
    (entryOf base scanRoot firsts file).getD [] = addressesOf base scanRoot firsts file := by
  unfold entryOf
  split
  · next h => simp [h]
  · simp

theorem entryOf_eq_some (base : Nat) (scanRoot : GoString) (firsts : List Secret)
    (file : File) (ptrs : List Ptr) (h : entryOf base scanRoot firsts file = some ptrs) :
    ptrs = addressesOf base scanRoot firsts file ∧ ptrs ≠ [] := by
  unfold entryOf at h
  split at h
  · cases h
  · next hne =>
    cases h
    exact ⟨rfl, hne⟩

/-- The record at the address of the first occurrence number `k`. -/
theorem reduceResult_heap_getElem? {σ : Type} (hook : ExploitHook σ) (this : Report)
    (heap : Heap) (world : σ) (secrets : List Secret) (scanRoot : GoString) (k : Nat)
    (s : Secret) (hk : (firstOccurrences (Secret.key scanRoot) secrets)[k]? = some s) :
    ∃ info,
      (exploitAll hook world (firstOccurrences (Secret.key scanRoot) secrets)).1[k]? =
        some (s, info) ∧
      (reduceResult hook this heap world secrets scanRoot).heap[heap.length + k]? =
        some (recordOf scanRoot secrets (s, info)) := by
  have hC : ((exploitAll hook world (firstOccurrences (Secret.key scanRoot) secrets)).1.map
      Prod.fst)[k]? = some s := by
    rw [exploitAll_map_fst]
    exact hk
  rw [List.getElem?_map] at hC
  cases hc : (exploitAll hook world (firstOccurrences (Secret.key scanRoot) secrets)).1[k]? with
  | none => rw [hc] at hC; cases hC
  | some c =>
    rw [hc] at hC
    obtain ⟨c1, c2⟩ := c
    have h1 : c1 = s := by simpa using hC
    subst h1
    refine ⟨c2, rfl, ?_⟩
    simp only [reduceResult]
    rw [List.getElem?_append_right (Nat.le_add_right _ _), Nat.add_sub_cancel_left,
      List.getElem?_map, hc]
    rfl

/-! ## The counter -/

theorem wrapInt_of_inRange (x : Int) (hlo : MinInt ≤ x) (hhi : x ≤ MaxInt) : wrapInt x = x := by
  unfold MinInt at hlo
  unfold MaxInt at hhi
  unfold wrapInt
  omega

theorem wrapInt_wrapInt_add_one (x : Int) : wrapInt (wrapInt x + 1) = wrapInt (x + 1) := by
  unfold wrapInt
  omega

theorem countAfter_succ (count : Int) (n : Nat) :
    wrapInt (countAfter count n + 1) = countAfter count (n + 1) := by
  unfold countAfter
  by_cases hn : n = 0
  · subst hn
    simp
  · rw [if_neg hn, if_neg (Nat.succ_ne_zero n), wrapInt_wrapInt_add_one]
    congr 1
    push_cast
    ring

theorem countAfter_of_inRange (count : Int) (n : Nat) (hlo : MinInt ≤ count)
    (hhi : count + n ≤ MaxInt) : countAfter count n = count + n := by
  unfold countAfter
  by_cases hn : n = 0
  · subst hn
    simp
  · rw [if_neg hn]
    exact wrapInt_of_inRange _ (by omega) hhi

/-! ## One iteration of ReduceAndExploit on the closed form -/

/-- A secret whose pair occurred before: the record of the pair gets one more line. -/
theorem step_repeat {σ : Type} (hook : ExploitHook σ) (this : Report) (heap : Heap)
    (world : σ) (l : List Secret) (s : Secret) (scanRoot rel : GoString)
    (hrel : GetRelativeFilename s.FileName scanRoot = some rel)
    (hmem : s.key scanRoot ∈ l.map (Secret.key scanRoot)) :
    ReduceAndExploit.step hook scanRoot (reduceResult hook this heap world l scanRoot) s =
      some (reduceResult hook this heap world (l ++ [s]) scanRoot) := by
  have hmemF := (mem_map_firstOccurrences (Secret.key scanRoot) l _).mpr hmem
  obtain ⟨s0, hs0, hkey0⟩ := List.mem_map.mp hmemF
  obtain ⟨k0, hk0⟩ := List.getElem?_of_mem hs0
  have hrel0 : GetRelativeFilename s0.FileName scanRoot = some rel :=
    (congrArg Prod.fst hkey0).trans hrel
  have hid0 : s0.ID = s.ID := congrArg Prod.snd hkey0
  obtain ⟨info0, -, hheap0⟩ :=
    reduceResult_heap_getElem? hook this heap world l scanRoot k0 s0 hk0
  have haddr0 : heap.length + k0 ∈
      addressesOf heap.length scanRoot (firstOccurrences (Secret.key scanRoot) l)
        { Filename := rel } :=
    (mem_addressesOf _ _ _ _ _).mpr ⟨k0, s0, hk0, hrel0, rfl⟩
  have hfile : (reduceResult hook this heap world l scanRoot).fileDefects.Defects
      { Filename := rel } =
      some (addressesOf heap.length scanRoot (firstOccurrences (Secret.key scanRoot) l)
        { Filename := rel }) := by
    simp only [reduceResult, entryOf]
    rw [if_neg (List.ne_nil_of_mem haddr0)]
  have hvalid : ∀ q ∈ addressesOf heap.length scanRoot
      (firstOccurrences (Secret.key scanRoot) l) { Filename := rel },
      q < (reduceResult hook this heap world l scanRoot).heap.length := by
    intro q hq
    obtain ⟨k, s1, hk, -, rfl⟩ := (mem_addressesOf _ _ _ _ _).mp hq
    obtain ⟨info, -, hh⟩ := reduceResult_heap_getElem? hook this heap world l scanRoot k s1 hk
    obtain ⟨hlt, -⟩ := List.getElem?_eq_some_iff.mp hh
    exact hlt
  obtain ⟨pre, p, post, d, hsplit, -, hd, hdid, hadd⟩ :=
    AddInstance_present _ _ rel s _ hfile hvalid ⟨_, haddr0, _, hheap0, hid0⟩
  have hp : p ∈ addressesOf heap.length scanRoot
      (firstOccurrences (Secret.key scanRoot) l) { Filename := rel } := by
    rw [hsplit]; simp
  obtain ⟨k1, s1, hk1, hrel1, rfl⟩ := (mem_addressesOf _ _ _ _ _).mp hp
  obtain ⟨info1, hc1, hheap1⟩ :=
    reduceResult_heap_getElem? hook this heap world l scanRoot k1 s1 hk1
  rw [hheap1] at hd
  cases hd
  have hkey1 : s1.key scanRoot = s.key scanRoot := Prod.ext (hrel1.trans hrel.symm) hdid
  have hk1lt : k1 < (firstOccurrences (Secret.key scanRoot) l).length := by
    obtain ⟨hlt, -⟩ := List.getElem?_eq_some_iff.mp hk1
    exact hlt
  simp only [ReduceAndExploit.step, hrel, hadd]
  simp only [reduceResult, firstOccurrences_concat, if_pos hmemF, Bool.false_eq_true,
    if_false, Option.some.injEq]
  congr 1
  rw [List.set_append_right _ _ (Nat.le_add_right _ _), Nat.add_sub_cancel_left]
  congr 1
  apply List.ext_getElem?
  intro j
  rw [List.getElem?_set, List.getElem?_map, List.getElem?_map, List.length_map,
    exploitAll_length]
  by_cases hj : k1 = j
  · subst hj
    rw [if_pos rfl, if_pos hk1lt, hc1]
    simp only [Option.map_some', recordOf, linesOf_concat, hkey1, if_true]
  · rw [if_neg hj]
    cases hcj : (exploitAll hook world (firstOccurrences (Secret.key scanRoot) l)).1[j]? with
    | none => rfl
    | some c =>
      have hFj : (firstOccurrences (Secret.key scanRoot) l)[j]? = some c.1 := by
        rw [← exploitAll_map_fst hook world (firstOccurrences (Secret.key scanRoot) l),
          List.getElem?_map, hcj]
        rfl
      have hne : ¬ s.key scanRoot = c.1.key scanRoot := by
        intro heq
        apply hj
        have hnodup := firstOccurrences_nodup (Secret.key scanRoot) l
        have hlt : k1 < ((firstOccurrences (Secret.key scanRoot) l).map
            (Secret.key scanRoot)).length := by
          rw [List.length_map]; exact hk1lt
        apply List.getElem?_inj hlt hnodup
        rw [List.getElem?_map, List.getElem?_map, hk1, hFj]
        simp only [Option.map_some']
        rw [hkey1, heq]
      simp only [Option.map_some', recordOf, linesOf_concat, if_neg hne, List.append_nil]

/-- A secret whose pair did not occur before: a record is allocated for it, the count is
incremented and `Exploit` is called. -/
theorem step_new {σ : Type} (hook : ExploitHook σ) (this : Report) (heap : Heap)
    (world : σ) (l : List Secret) (s : Secret) (scanRoot rel : GoString)
    (hrel : GetRelativeFilename s.FileName scanRoot = some rel)
    (hmem : s.key scanRoot ∉ l.map (Secret.key scanRoot)) :
    ReduceAndExploit.step hook scanRoot (reduceResult hook this heap world l scanRoot) s =
      some (reduceResult hook this heap world (l ++ [s]) scanRoot) := by
  have hmemF : s.key scanRoot ∉ (firstOccurrences (Secret.key scanRoot) l).map
      (Secret.key scanRoot) :=
    fun h => hmem ((mem_map_firstOccurrences (Secret.key scanRoot) l _).mp h)
  have habsent : ∀ ptrs,
      (reduceResult hook this heap world l scanRoot).fileDefects.Defects { Filename := rel } =
        some ptrs →
      ∀ q ∈ ptrs, ∃ e, (reduceResult hook this heap world l scanRoot).heap[q]? = some e ∧
        e.secretID ≠ s.ID := by
    intro ptrs hptrs q hq
    obtain ⟨rfl, -⟩ := entryOf_eq_some _ _ _ _ _ hptrs
    obtain ⟨k, s1, hk, hrel1, rfl⟩ := (mem_addressesOf _ _ _ _ _).mp hq
    obtain ⟨info, -, hh⟩ := reduceResult_heap_getElem? hook this heap world l scanRoot k s1 hk
    refine ⟨_, hh, ?_⟩
    intro hid
    apply hmemF
    refine List.mem_map.mpr ⟨s1, List.getElem?_mem hk, ?_⟩
    exact Prod.ext (hrel1.trans hrel.symm) hid
  have hadd := AddInstance_absent _ _ rel s habsent
  have hlen : (reduceResult hook this heap world l scanRoot).heap.length =
      heap.length + (firstOccurrences (Secret.key scanRoot) l).length := by
    simp [reduceResult, exploitAll_length]
  have hold : ∀ c ∈ (exploitAll hook world (firstOccurrences (Secret.key scanRoot) l)).1,
      recordOf scanRoot l c = recordOf scanRoot (l ++ [s]) c := by
    intro c hc
    have hc1 : c.1 ∈ firstOccurrences (Secret.key scanRoot) l := by
      rw [← exploitAll_map_fst hook world (firstOccurrences (Secret.key scanRoot) l)]
      exact List.mem_map_of_mem _ hc
    have hne : ¬ s.key scanRoot = c.1.key scanRoot := fun heq =>
      hmemF (heq ▸ List.mem_map_of_mem _ hc1)
    simp only [recordOf, linesOf_concat, if_neg hne, List.append_nil]
  simp only [ReduceAndExploit.step, hrel, hadd, if_true, List.getElem?_concat_length]
  simp only [reduceResult, firstOccurrences_concat, if_neg hmemF, exploitAll_concat,
    Option.some.injEq]
  congr 1
  · simp only [List.length_append, List.length_singleton, countAfter_succ]
  · rw [List.set_append_right _ _ (Nat.le_refl _), Nat.sub_self, List.map_append,
      ← List.append_assoc, List.map_congr_left hold]
    simp only [List.set_cons_zero, List.map_cons, List.map_nil, recordOf, linesOf_concat,
      if_true, linesOf_eq_nil scanRoot l _ hmem, List.nil_append]
  · congr 1
    funext file
    have hlen1 : (heap ++ List.map (recordOf scanRoot l)
        (exploitAll hook world (firstOccurrences (Secret.key scanRoot) l)).1).length =
        heap.length + (firstOccurrences (Secret.key scanRoot) l).length := by
      simp [exploitAll_length]
    rw [hlen1, entryOf_getD]
    by_cases hfile : file = { Filename := rel }
    · subst hfile
      rw [Function.update_same]
      simp only [entryOf, addressesOf_concat, hrel, if_true]
      rw [if_neg (by simp)]
    · rw [Function.update_noteq hfile]
      have hne : ¬ GetRelativeFilename s.FileName scanRoot = some file.Filename := by
        rw [hrel]
        intro h
        apply hfile
        cases file
        simp only [Option.some.injEq] at h
        simp [h]
      simp only [entryOf, addressesOf_concat, if_neg hne, List.append_nil]

/-! ## ReduceAndExploit in closed form -/

theorem GetRelativeFilename_of_liesUnder (scanRoot fileName : GoString)
    (h : liesUnder scanRoot fileName) :
    ∃ rel, GetRelativeFilename fileName scanRoot = some rel := by
  obtain ⟨sep, rel, rfl⟩ := h
  refine ⟨rel, ?_⟩
  have hdrop : (scanRoot ++ sep :: rel).drop (scanRoot.length + 1) = rel := by
    rw [List.drop_append_eq_append_drop]
    simp
  simp [GetRelativeFilename, hdrop]

theorem ReduceAndExploit_concat {σ : Type} (hook : ExploitHook σ) (this : Report)
    (heap : Heap) (world : σ) (l : List Secret) (s : Secret) (scanRoot : GoString) :
    this.ReduceAndExploit hook heap world (l ++ [s]) scanRoot =
      (this.ReduceAndExploit hook heap world l scanRoot).bind
        (fun st => ReduceAndExploit.step hook scanRoot st s) := by
  simp only [Report.ReduceAndExploit, List.foldlM_append, List.foldlM_cons, List.foldlM_nil,
    bind_pure]
  rfl

/-- Whenever the relative file name of every secret can be taken, `ReduceAndExploit`
returns, and the state it ends in is `reduceResult`. -/
theorem ReduceAndExploit_eq {σ : Type} (hook : ExploitHook σ) (this : Report) (heap : Heap)
    (world : σ) (secrets : List Secret) (scanRoot : GoString)
    (h : ∀ s ∈ secrets, ∃ rel, GetRelativeFilename s.FileName scanRoot = some rel) :
    this.ReduceAndExploit hook heap world secrets scanRoot =
      some (reduceResult hook this heap world secrets scanRoot) := by
  induction secrets using List.reverseRecOn with
  | nil =>
    simp only [Report.ReduceAndExploit, List.foldlM_nil, reduceResult, firstOccurrences,
      List.foldl_nil, exploitAll, List.map_nil, List.append_nil, List.length_nil,
      countAfter, if_true]
    rfl
  | append_singleton l s ih =>
    have hl : ∀ t ∈ l, ∃ rel, GetRelativeFilename t.FileName scanRoot = some rel :=
      fun t ht => h t (List.mem_append_left _ ht)
    obtain ⟨rel, hrel⟩ := h s (List.mem_append_right _ (List.mem_singleton_self s))
    rw [ReduceAndExploit_concat, ih hl, Option.some_bind]
    by_cases hmem : s.key scanRoot ∈ l.map (Secret.key scanRoot)
    · exact step_repeat hook this heap world l s scanRoot rel hrel hmem
    · exact step_new hook this heap world l s scanRoot rel hrel hmem

/-! ## Counting -/

theorem firstOccurrences_length {α κ : Type} [DecidableEq κ] (key : α → κ) (l : List α) :
    (firstOccurrences key l).length = (l.map key).toFinset.card := by
  have hset : (l.map key).toFinset = ((firstOccurrences key l).map key).toFinset := by
    ext k
    simp only [List.mem_toFinset]
    exact (mem_map_firstOccurrences key l k).symm
  rw [hset, List.toFinset_card_of_nodup (firstOccurrences_nodup key l), List.length_map]

theorem mem_relativeFiles (scanRoot : GoString) (secrets : List Secret) (file : File) :
    file ∈ relativeFiles scanRoot secrets ↔
      ∃ s ∈ secrets, GetRelativeFilename s.FileName scanRoot = some file.Filename := by
  simp only [relativeFiles, List.mem_toFinset, List.mem_filterMap, Option.map_eq_some']
  constructor
  · rintro ⟨s, hs, rel, hrel, rfl⟩
    exact ⟨s, hs, hrel⟩
  · rintro ⟨s, hs, hrel⟩
    exact ⟨s, hs, file.Filename, hrel, rfl⟩

/-- The lists of the files of a set `S` hold one address per first occurrence lying in a
file of `S`. -/
theorem sum_addressesOf_length (base : Nat) (scanRoot : GoString) (S : Finset File)
    (firsts : List Secret)
    (h : ∀ s ∈ firsts, ∃ file ∈ S,
      GetRelativeFilename s.FileName scanRoot = some file.Filename) :
    ∑ file in S, (addressesOf base scanRoot firsts file).length = firsts.length := by
  induction firsts using List.reverseRecOn with
  | nil => simp [addressesOf]
  | append_singleton l s ih =>
    obtain ⟨file0, hfile0, hrel0⟩ := h s (List.mem_append_right _ (List.mem_singleton_self s))
    have hl := ih (fun t ht => h t (List.mem_append_left _ ht))
    have hcond : ∀ file : File,
        (GetRelativeFilename s.FileName scanRoot = some file.Filename) ↔ file0 = file := by
      intro file
      rw [hrel0]
      constructor
      · intro heq
        cases file0
        cases file
        simp only [Option.some.injEq] at heq
        simp [heq]
      · rintro rfl
        rfl
    simp only [addressesOf_concat, List.length_append, Finset.sum_add_distrib, hl, hcond]
    simp [apply_ite List.length, Finset.sum_ite_eq, hfile0]

theorem entryOf_eq_none_iff (base : Nat) (scanRoot : GoString) (firsts : List Secret)
    (file : File) :
    entryOf base scanRoot firsts file = none ↔
      ∀ s ∈ firsts, GetRelativeFilename s.FileName scanRoot ≠ some file.Filename := by
  unfold entryOf
  constructor
  · intro h s hs hrel
    obtain ⟨k, hk⟩ := List.getElem?_of_mem hs
    have hmem : base + k ∈ addressesOf base scanRoot firsts file :=
      (mem_addressesOf _ _ _ _ _).mpr ⟨k, s, hk, hrel, rfl⟩
    split at h
    · next hnil => rw [hnil] at hmem; cases hmem
    · cases h
  · intro h
    rw [if_pos]
    apply List.eq_nil_iff_forall_not_mem.mpr
    intro p hp
    obtain ⟨k, s, hk, hrel, -⟩ := (mem_addressesOf _ _ _ _ _).mp hp
    exact h s (List.getElem?_mem hk) hrel

theorem liesUnder_prefix (scanRoot : GoString) (secrets pre : List Secret) (post : List Secret)
    (h : ∀ s ∈ secrets, liesUnder scanRoot s.FileName) (hsplit : secrets = pre ++ post) :
    ∀ s ∈ pre, ∃ rel, GetRelativeFilename s.FileName scanRoot = some rel :=
  fun s hs => GetRelativeFilename_of_liesUnder scanRoot s.FileName
    (h s (hsplit ▸ List.mem_append_left _ hs))

theorem firstOccurrences_length_le {α κ : Type} [DecidableEq κ] (key : α → κ)
    (l1 l2 : List α) :
    (firstOccurrences key l1).length ≤ (firstOccurrences key (l1 ++ l2)).length := by
  obtain ⟨r, hr⟩ := firstOccurrences_append_left key l1 l2
  rw [hr, List.length_append]
  exact Nat.le_add_right _ _

/-- Counterexample to C4 as stated: the report has counted `MaxInt` defects and one
secret, lying under the scan root `r`, is reduced; one Defect is created, and the
statement `DefectCount++` wraps: the count is then `MinInt`, which is neither the old
count plus one nor at least the old count. -/
theorem C4_ReduceAndExploit_count_counterexample :
    (∀ s ∈ [exSecret [1] 3], liesUnder [114] s.FileName) ∧
    ((exReport 9223372036854775807).ReduceAndExploit exHook [] () [exSecret [1] 3] [114]).map
        (fun out => (out.report.DefectCount, out.fileDefects.Defects { Filename := [102] })) =
      some (-9223372036854775808, some [0]) ∧
    (-9223372036854775808 : Int) ≠ (exReport 9223372036854775807).DefectCount + 1 ∧
    (-9223372036854775808 : Int) < (exReport 9223372036854775807).DefectCount := by
  refine ⟨?_, by decide, by decide, by decide⟩
  intro s hs
  rw [List.mem_singleton] at hs
  subst hs
  exact ⟨47, [102], rfl⟩

/-- Claim C4, amended: for secrets whose file names all lie under `scanRoot`,
`ReduceAndExploit` returns; the number of Defects in the lists of the returned
`FileDefects` (only the files of the secrets have a list) is the number of distinct pairs
(relative file name, fingerprint) among the secrets; `DefectCount` is incremented once
for each of these pairs, as a Go `int`; and whenever the count of the report is a Go
`int` and the count plus the number of distinct pairs does not exceed `MaxInt`,
`DefectCount` increases by exactly that number, along the input a secret whose pair
occurred before leaves the count as it is and any other secret increases it by one, and
the count does not decrease. -/
theorem C4_ReduceAndExploit_count {σ : Type} (hook : ExploitHook σ) (this : Report)
    (heap : Heap) (world : σ) (secrets : List Secret) (scanRoot : GoString)
    (hunder : ∀ s ∈ secrets, liesUnder scanRoot s.FileName) :
    ∃ out, this.ReduceAndExploit hook heap world secrets scanRoot = some out ∧
      (∑ file in relativeFiles scanRoot secrets,
          ((out.fileDefects.Defects file).getD []).length) =
        (secrets.map (Secret.key scanRoot)).toFinset.card ∧
      (∀ file, file ∉ relativeFiles scanRoot secrets → out.fileDefects.Defects file = none) ∧
      out.report.DefectCount =
        (if (secrets.map (Secret.key scanRoot)).toFinset.card = 0 then this.DefectCount
          else wrapInt (this.DefectCount +
            ((secrets.map (Secret.key scanRoot)).toFinset.card : Int))) ∧
      (MinInt ≤ this.DefectCount →
        this.DefectCount + ((secrets.map (Secret.key scanRoot)).toFinset.card : Int) ≤ MaxInt →
        out.report.DefectCount =
          this.DefectCount + ((secrets.map (Secret.key scanRoot)).toFinset.card : Int) ∧
        (∀ pre s post, secrets = pre ++ s :: post →
          ∃ before after,
            this.ReduceAndExploit hook heap world pre scanRoot = some before ∧
            this.ReduceAndExploit hook heap world (pre ++ [s]) scanRoot = some after ∧
            after.report.DefectCount = before.report.DefectCount +
              (if s.key scanRoot ∈ pre.map (Secret.key scanRoot) then 0 else 1)) ∧
        this.DefectCount ≤ out.report.DefectCount) := by
  have hall : ∀ s ∈ secrets, ∃ rel, GetRelativeFilename s.FileName scanRoot = some rel :=
    liesUnder_prefix scanRoot secrets secrets [] hunder (by simp)
  refine ⟨_, ReduceAndExploit_eq hook this heap world secrets scanRoot hall, ?_, ?_, ?_, ?_⟩
  · simp only [reduceResult, entryOf_getD, ← firstOccurrences_length]
    apply sum_addressesOf_length
    intro s hs
    have hs1 := (firstOccurrences_sublist (Secret.key scanRoot) secrets).subset hs
    obtain ⟨rel, hrel⟩ := hall s hs1
    exact ⟨{ Filename := rel }, (mem_relativeFiles _ _ _).mpr ⟨s, hs1, hrel⟩, hrel⟩
  · intro file hfile
    simp only [reduceResult]
    rw [entryOf_eq_none_iff]
    intro s hs hrel
    exact hfile ((mem_relativeFiles _ _ _).mpr
      ⟨s, (firstOccurrences_sublist (Secret.key scanRoot) secrets).subset hs, hrel⟩)
  · simp only [reduceResult, countAfter, firstOccurrences_length]
  · intro hlo hhi
    rw [← firstOccurrences_length] at hhi
    refine ⟨?_, ?_, ?_⟩
    · simp only [reduceResult, ← firstOccurrences_length]
      exact countAfter_of_inRange _ _ hlo hhi
    · intro pre s post hsplit
      have hpre := liesUnder_prefix scanRoot secrets pre (s :: post) hunder hsplit
      have hpre1 := liesUnder_prefix scanRoot secrets (pre ++ [s]) post hunder
        (by simp [hsplit])
      have hle1 : (firstOccurrences (Secret.key scanRoot) (pre ++ [s])).length ≤
          (firstOccurrences (Secret.key scanRoot) secrets).length := by
        have hs : secrets = (pre ++ [s]) ++ post := by simp [hsplit]
        rw [hs]
        exact firstOccurrences_length_le _ _ _
      have hle0 : (firstOccurrences (Secret.key scanRoot) pre).length ≤
          (firstOccurrences (Secret.key scanRoot) (pre ++ [s])).length :=
        firstOccurrences_length_le _ _ _
      refine ⟨_, _, ReduceAndExploit_eq hook this heap world pre scanRoot hpre,
        ReduceAndExploit_eq hook this heap world (pre ++ [s]) scanRoot hpre1, ?_⟩
      simp only [reduceResult]
      rw [countAfter_of_inRange _ _ hlo (by omega), countAfter_of_inRange _ _ hlo (by omega),
        firstOccurrences_concat]
      by_cases hmem : s.key scanRoot ∈ pre.map (Secret.key scanRoot)
      · rw [if_pos ((mem_map_firstOccurrences _ _ _).mpr hmem), if_pos hmem, add_zero]
      · rw [if_neg (fun h => hmem ((mem_map_firstOccurrences _ _ _).mp h)), if_neg hmem,
          List.length_append, List.length_singleton]
        push_cast
        ring
    · simp only [reduceResult]
      rw [countAfter_of_inRange _ _ hlo hhi]
      omega

/-- The secrets of `exSecrets` lie under the directory `r`. -/
theorem exSecrets_liesUnder : ∀ s ∈ exSecrets, liesUnder [114] s.FileName := by
  intro s hs
  simp only [exSecrets, List.mem_cons, List.mem_singleton, List.not_mem_nil, or_false] at hs
  rcases hs with rfl | rfl | rfl <;> exact ⟨47, [102], rfl⟩

/-- Witness of C4: the three secrets of `exSecrets` (two distinct pairs), scanned under
`r`, on a report that counted 5 defects: the count becomes 7. -/
theorem C4_ReduceAndExploit_count_witness :
    (∀ s ∈ exSecrets, liesUnder [114] s.FileName) ∧
    MinInt ≤ (exReport 5).DefectCount ∧
    (exReport 5).DefectCount + ((exSecrets.map (Secret.key [114])).toFinset.card : Int) ≤
      MaxInt ∧
    ((exReport 5).ReduceAndExploit exHook [] () exSecrets [114]).map
      (fun out => out.report.DefectCount) = some 7 ∧
    ∃ out, (exReport 5).ReduceAndExploit exHook [] () exSecrets [114] = some out ∧
      (∑ file in relativeFiles [114] exSecrets,
          ((out.fileDefects.Defects file).getD []).length) =
        (exSecrets.map (Secret.key [114])).toFinset.card ∧
      (∀ file, file ∉ relativeFiles [114] exSecrets → out.fileDefects.Defects file = none) ∧
      out.report.DefectCount =
        (if (exSecrets.map (Secret.key [114])).toFinset.card = 0 then (exReport 5).DefectCount
          else wrapInt ((exReport 5).DefectCount +
            ((exSecrets.map (Secret.key [114])).toFinset.card : Int))) ∧
      (MinInt ≤ (exReport 5).DefectCount →
        (exReport 5).DefectCount + ((exSecrets.map (Secret.key [114])).toFinset.card : Int) ≤
          MaxInt →
        out.report.DefectCount =
          (exReport 5).DefectCount + ((exSecrets.map (Secret.key [114])).toFinset.card : Int) ∧
        (∀ pre s post, exSecrets = pre ++ s :: post →
          ∃ before after,
            (exReport 5).ReduceAndExploit exHook [] () pre [114] = some before ∧
            (exReport 5).ReduceAndExploit exHook [] () (pre ++ [s]) [114] = some after ∧
            after.report.DefectCount = before.report.DefectCount +
              (if s.key [114] ∈ pre.map (Secret.key [114]) then 0 else 1)) ∧
        (exReport 5).DefectCount ≤ out.report.DefectCount) ∧
      out.report.DefectCount =
        (exReport 5).DefectCount + ((exSecrets.map (Secret.key [114])).toFinset.card : Int) ∧
      (exReport 5).DefectCount ≤ out.report.DefectCount :=
  ⟨exSecrets_liesUnder, by decide, by decide, by decide,
    match C4_ReduceAndExploit_count exHook (exReport 5) [] () exSecrets [114]
      exSecrets_liesUnder with
    | ⟨out, hrun, hsum, hnone, hwrap, hexact⟩ =>
      ⟨out, hrun, hsum, hnone, hwrap, hexact,
        (hexact (by decide) (by decide)).1, (hexact (by decide) (by decide)).2.2⟩⟩

/-! ## Lines of the returned Defects -/

theorem GetRelativeFilename_append (scanRoot rel : GoString) (sep : UInt8) :
    GetRelativeFilename (scanRoot ++ sep :: rel) scanRoot = some rel := by
  have hdrop : (scanRoot ++ sep :: rel).drop (scanRoot.length + 1) = rel := by
    rw [List.drop_append_eq_append_drop]
    simp
  simp [GetRelativeFilename, hdrop]

/-- The record behind an address of the list of a file, in the state `reduceResult`. -/
theorem reduceResult_record {σ : Type} (hook : ExploitHook σ) (this : Report) (heap : Heap)
    (world : σ) (secrets : List Secret) (scanRoot : GoString) (file : File)
    (ptrs : List Ptr)
    (hptrs : (reduceResult hook this heap world secrets scanRoot).fileDefects.Defects file =
      some ptrs) (p : Ptr) (hp : p ∈ ptrs) :
    ∃ k s info,
      p = heap.length + k ∧
      (firstOccurrences (Secret.key scanRoot) secrets)[k]? = some s ∧
      GetRelativeFilename s.FileName scanRoot = some file.Filename ∧
      (exploitAll hook world (firstOccurrences (Secret.key scanRoot) secrets)).1[k]? =
        some (s, info) ∧
      (reduceResult hook this heap world secrets scanRoot).heap[p]? =
        some (recordOf scanRoot secrets (s, info)) := by
  obtain ⟨rfl, -⟩ := entryOf_eq_some _ _ _ _ _ hptrs
  obtain ⟨k, s, hk, hrel, rfl⟩ := (mem_addressesOf _ _ _ _ _).mp hp
  obtain ⟨info, hc, hh⟩ :=
    reduceResult_heap_getElem? hook this heap world secrets scanRoot k s hk
  exact ⟨k, s, info, rfl, hk, hrel, hc, hh⟩

/-- Claim C5: for secrets whose file names all lie under `scanRoot`, `ReduceAndExploit`
returns, and every Defect of every list of the result has as `Lines` the line numbers of
exactly the input secrets with the relative file name of the list and the fingerprint of
the Defect, in input order, repeated line numbers kept.  Hence (second part) one secret on
line `n` gives one Defect with `Lines = [n]`, and (third part) one value found twice in a
file, on lines `a` then `b`, gives a single Defect with `Lines = [a, b]`. -/
theorem C5_ReduceAndExploit_lines {σ : Type} (hook : ExploitHook σ) (this : Report)
    (heap : Heap) (world : σ) (secrets : List Secret) (scanRoot : GoString)
    (hunder : ∀ s ∈ secrets, liesUnder scanRoot s.FileName) :
    (∃ out, this.ReduceAndExploit hook heap world secrets scanRoot = some out ∧
      ∀ file ptrs, out.fileDefects.Defects file = some ptrs → ∀ p ∈ ptrs,
        ∃ d, out.heap[p]? = some d ∧
          d.Lines = (secrets.filter (fun s =>
            GetRelativeFilename s.FileName scanRoot = some file.Filename ∧
              s.ID = d.secretID)).map (fun s => s.LineNumber)) ∧
    (∀ (s : Secret) (sep : UInt8) (rel : GoString), s.FileName = scanRoot ++ sep :: rel →
      ∃ out p d, this.ReduceAndExploit hook heap world [s] scanRoot = some out ∧
        out.fileDefects.Defects { Filename := rel } = some [p] ∧
        (∀ file, file ≠ { Filename := rel } → out.fileDefects.Defects file = none) ∧
        out.heap[p]? = some d ∧ d.Lines = [s.LineNumber]) ∧
    (∀ (s1 s2 : Secret) (sep : UInt8) (rel : GoString),
      s1.FileName = scanRoot ++ sep :: rel → s2.FileName = s1.FileName → s2.ID = s1.ID →
      ∃ out p d, this.ReduceAndExploit hook heap world [s1, s2] scanRoot = some out ∧
        out.fileDefects.Defects { Filename := rel } = some [p] ∧
        (∀ file, file ≠ { Filename := rel } → out.fileDefects.Defects file = none) ∧
        out.heap[p]? = some d ∧ d.Lines = [s1.LineNumber, s2.LineNumber]) := by
  refine ⟨?_, ?_, ?_⟩
  · have hall : ∀ s ∈ secrets, ∃ rel, GetRelativeFilename s.FileName scanRoot = some rel :=
      liesUnder_prefix scanRoot secrets secrets [] hunder (by simp)
    refine ⟨_, ReduceAndExploit_eq hook this heap world secrets scanRoot hall, ?_⟩
    intro file ptrs hptrs p hp
    obtain ⟨k, s1, info, -, -, hrel, -, hh⟩ :=
      reduceResult_record hook this heap world secrets scanRoot file ptrs hptrs p hp
    refine ⟨_, hh, ?_⟩
    simp only [recordOf, linesOf]
    congr 1
    apply List.filter_congr
    intro s _
    simp only [Secret.key, Prod.mk.injEq, hrel]
  · intro s sep rel hs
    have hrel : GetRelativeFilename s.FileName scanRoot = some rel := by
      rw [hs]; exact GetRelativeFilename_append scanRoot rel sep
    have hrun := ReduceAndExploit_eq hook this heap world [s] scanRoot
      (by intro t ht; rw [List.mem_singleton] at ht; subst ht; exact ⟨rel, hrel⟩)
    refine ⟨_, heap.length,
      { Lines := [s.LineNumber], secretID := s.ID, Tag := s.Rule.Tag,
        AdditionalInfo := (s.Exploit hook world).1 }, hrun, ?_, ?_, ?_, rfl⟩
    · simp [reduceResult, firstOccurrences, entryOf, addressesOf, List.enum_cons, hrel]
    · intro file hfile
      have hne : ¬ rel = file.Filename := by
        intro h; apply hfile; cases file; simp [h]
      simp [reduceResult, firstOccurrences, entryOf, addressesOf, List.enum_cons, hrel, hne]
    · simp [reduceResult, firstOccurrences, exploitAll, recordOf, linesOf]
  · intro s1 s2 sep rel hs1 hs2 hid
    have hrel1 : GetRelativeFilename s1.FileName scanRoot = some rel := by
      rw [hs1]; exact GetRelativeFilename_append scanRoot rel sep
    have hrel2 : GetRelativeFilename s2.FileName scanRoot = some rel := by
      rw [hs2]; exact hrel1
    have hkey : s2.key scanRoot = s1.key scanRoot := Prod.ext (hrel2.trans hrel1.symm) hid
    have hrun := ReduceAndExploit_eq hook this heap world [s1, s2] scanRoot
      (by
        intro t ht
        simp only [List.mem_cons, List.mem_singleton, List.not_mem_nil, or_false] at ht
        rcases ht with rfl | rfl
        · exact ⟨rel, hrel1⟩
        · exact ⟨rel, hrel2⟩)
    refine ⟨_, heap.length,
      { Lines := [s1.LineNumber, s2.LineNumber], secretID := s1.ID, Tag := s1.Rule.Tag,
        AdditionalInfo := (s1.Exploit hook world).1 }, hrun, ?_, ?_, ?_, rfl⟩
    · simp [reduceResult, firstOccurrences, entryOf, addressesOf, List.enum_cons, hrel1, hkey]
    · intro file hfile
      have hne : ¬ rel = file.Filename := by
        intro h; apply hfile; cases file; simp [h]
      simp [reduceResult, firstOccurrences, entryOf, addressesOf, List.enum_cons, hrel1,
        hkey, hne]
    · simp [reduceResult, firstOccurrences, exploitAll, recordOf, linesOf, hkey]

/-- Witness of C5: the three secrets of `exSecrets`, one secret alone, and the two
occurrences of fingerprint `[1]`. -/
theorem C5_ReduceAndExploit_lines_witness :
    (∀ s ∈ exSecrets, liesUnder [114] s.FileName) ∧
    (∃ out, (exReport 5).ReduceAndExploit exHook [] () exSecrets [114] = some out ∧
      ∀ file ptrs, out.fileDefects.Defects file = some ptrs → ∀ p ∈ ptrs,
        ∃ d, out.heap[p]? = some d ∧
          d.Lines = (exSecrets.filter (fun s =>
            GetRelativeFilename s.FileName [114] = some file.Filename ∧
              s.ID = d.secretID)).map (fun s => s.LineNumber)) ∧
    (∃ out p d, (exReport 5).ReduceAndExploit exHook [] () [exSecret [1] 3] [114] = some out ∧
        out.fileDefects.Defects { Filename := [102] } = some [p] ∧
        (∀ file, file ≠ { Filename := [102] } → out.fileDefects.Defects file = none) ∧
        out.heap[p]? = some d ∧ d.Lines = [(exSecret [1] 3).LineNumber]) ∧
    (∃ out p d,
        (exReport 5).ReduceAndExploit exHook [] () [exSecret [1] 3, exSecret [1] 7] [114] =
          some out ∧
        out.fileDefects.Defects { Filename := [102] } = some [p] ∧
        (∀ file, file ≠ { Filename := [102] } → out.fileDefects.Defects file = none) ∧
        out.heap[p]? = some d ∧
        d.Lines = [(exSecret [1] 3).LineNumber, (exSecret [1] 7).LineNumber]) :=
  ⟨exSecrets_liesUnder,
    (C5_ReduceAndExploit_lines exHook (exReport 5) [] () exSecrets [114]
      exSecrets_liesUnder).1,
    (C5_ReduceAndExploit_lines exHook (exReport 5) [] () exSecrets [114]
      exSecrets_liesUnder).2.1 (exSecret [1] 3) 47 [102] rfl,
    (C5_ReduceAndExploit_lines exHook (exReport 5) [] () exSecrets [114]
      exSecrets_liesUnder).2.2 (exSecret [1] 3) (exSecret [1] 7) 47 [102] rfl rfl rfl⟩

/-! ## Fingerprints of the returned lists -/

/-- The fingerprints of the records behind the addresses of a file, in the state
`reduceResult`. -/
theorem reduceResult_fingerprints {σ : Type} (hook : ExploitHook σ) (this : Report)
    (heap : Heap) (world : σ) (secrets : List Secret) (scanRoot : GoString) (file : File) :
    (addressesOf heap.length scanRoot (firstOccurrences (Secret.key scanRoot) secrets)
        file).map
      (fun p => ((reduceResult hook this heap world secrets scanRoot).heap[p]?).map
        Defect.secretID) =
    (((firstOccurrences (Secret.key scanRoot) secrets).filter
        (fun s => GetRelativeFilename s.FileName scanRoot = some file.Filename)).map
      (fun s => s.ID)).map some := by
  have hfilter : (firstOccurrences (Secret.key scanRoot) secrets).filter
      (fun s => GetRelativeFilename s.FileName scanRoot = some file.Filename) =
      ((firstOccurrences (Secret.key scanRoot) secrets).enum.filter
        (fun ks => GetRelativeFilename ks.2.FileName scanRoot = some file.Filename)).map
        Prod.snd := by
    conv_lhs => rw [← List.enum_map_snd (firstOccurrences (Secret.key scanRoot) secrets)]
    rw [List.filter_map]
    rfl
  rw [hfilter]
  simp only [addressesOf, List.map_map]
  apply List.map_congr_left
  intro ks hks
  obtain ⟨hmem, -⟩ := List.mem_filter.mp hks
  obtain ⟨k, s⟩ := ks
  have hk := List.mk_mem_enum_iff_getElem?.mp hmem
  obtain ⟨info, -, hh⟩ :=
    reduceResult_heap_getElem? hook this heap world secrets scanRoot k s hk
  simp only [Function.comp_apply, hh, Option.map_some', recordOf]

/-- Within one file, the first occurrences of the pairs are the first occurrences of the
fingerprints. -/
theorem firstOccurrences_filter_file (scanRoot : GoString) (secrets : List Secret)
    (file : File) :
    ((firstOccurrences (Secret.key scanRoot) secrets).filter
        (fun s => GetRelativeFilename s.FileName scanRoot = some file.Filename)).map
      (fun s => s.ID) =
    firstOccurrences id
      ((secrets.filter
        (fun s => GetRelativeFilename s.FileName scanRoot = some file.Filename)).map
        (fun s => s.ID)) := by
  induction secrets using List.reverseRecOn with
  | nil => simp [firstOccurrences]
  | append_singleton l s ih =>
    rw [firstOccurrences_concat]
    by_cases hrel : GetRelativeFilename s.FileName scanRoot = some file.Filename
    · have hiff : s.key scanRoot ∈ (firstOccurrences (Secret.key scanRoot) l).map
          (Secret.key scanRoot) ↔
          id s.ID ∈ (firstOccurrences id ((l.filter (fun s =>
            GetRelativeFilename s.FileName scanRoot = some file.Filename)).map
              (fun s => s.ID))).map id := by
        rw [mem_map_firstOccurrences, mem_map_firstOccurrences]
        simp only [List.mem_map, List.mem_filter, decide_eq_true_eq, id, exists_eq_right]
        constructor
        · rintro ⟨t, ht, hkey⟩
          refine ⟨t, ⟨ht, ?_⟩, congrArg Prod.snd hkey⟩
          exact (congrArg Prod.fst hkey).trans hrel
        · rintro ⟨t, ⟨ht, htrel⟩, hid⟩
          exact ⟨t, ht, Prod.ext (htrel.trans hrel.symm) hid⟩
      have hfl : (l ++ [s]).filter (fun s =>
          GetRelativeFilename s.FileName scanRoot = some file.Filename) =
          l.filter (fun s => GetRelativeFilename s.FileName scanRoot = some file.Filename) ++
            [s] := by
        simp [List.filter_append, hrel]
      rw [hfl, List.map_append, List.map_singleton, firstOccurrences_concat]
      by_cases hmem : s.key scanRoot ∈ (firstOccurrences (Secret.key scanRoot) l).map
          (Secret.key scanRoot)
      · rw [if_pos hmem, if_pos (hiff.mp hmem)]
        exact ih
      · rw [if_neg hmem, if_neg (fun h => hmem (hiff.mpr h)), List.filter_append,
          List.map_append, ih]
        simp [hrel]
    · have hfl : (l ++ [s]).filter (fun s =>
          GetRelativeFilename s.FileName scanRoot = some file.Filename) =
          l.filter (fun s => GetRelativeFilename s.FileName scanRoot = some file.Filename) := by
        simp [List.filter_append, hrel]
      rw [hfl]
      by_cases hmem : s.key scanRoot ∈ (firstOccurrences (Secret.key scanRoot) l).map
          (Secret.key scanRoot)
      · rw [if_pos hmem]
        exact ih
      · rw [if_neg hmem, List.filter_append, List.map_append, ih]
        simp [hrel]

/-- Claim C6: for secrets whose file names all lie under `scanRoot` and for every file,
the list `ReduceAndExploit` returns for the file holds one Defect per distinct fingerprint
among the secrets of the file, in the order in which the fingerprints first occur in the
input (the addresses of the list are pairwise distinct, and the file has no list exactly
when it has no secret); second part: the first occurrences of a list have no duplicate
and the same members as the list; third part: two secrets of one file with different
fingerprints give two distinct Defects with one line each, whatever their line numbers. -/
theorem C6_ReduceAndExploit_one_defect_per_fingerprint {σ : Type} (hook : ExploitHook σ)
    (this : Report) (heap : Heap) (world : σ) (secrets : List Secret) (scanRoot : GoString)
    (hunder : ∀ s ∈ secrets, liesUnder scanRoot s.FileName) :
    (∃ out, this.ReduceAndExploit hook heap world secrets scanRoot = some out ∧
      ∀ file : File,
        ((out.fileDefects.Defects file).getD []).map
            (fun p => (out.heap[p]?).map Defect.secretID) =
          (firstOccurrences id
            ((secrets.filter (fun s =>
              GetRelativeFilename s.FileName scanRoot = some file.Filename)).map
                (fun s => s.ID))).map some ∧
        ((out.fileDefects.Defects file).getD []).Nodup ∧
        (out.fileDefects.Defects file = none ↔
          ∀ s ∈ secrets, GetRelativeFilename s.FileName scanRoot ≠ some file.Filename)) ∧
    (∀ l : List GoString,
      (firstOccurrences id l).Nodup ∧ ∀ fp, fp ∈ firstOccurrences id l ↔ fp ∈ l) ∧
    (∀ (s1 s2 : Secret) (sep : UInt8) (rel : GoString),
      s1.FileName = scanRoot ++ sep :: rel → s2.FileName = s1.FileName → s1.ID ≠ s2.ID →
      ∃ out p1 p2 d1 d2,
        this.ReduceAndExploit hook heap world [s1, s2] scanRoot = some out ∧
        out.fileDefects.Defects { Filename := rel } = some [p1, p2] ∧ p1 ≠ p2 ∧
        out.heap[p1]? = some d1 ∧ out.heap[p2]? = some d2 ∧
        d1.secretID = s1.ID ∧ d2.secretID = s2.ID ∧
        d1.Lines = [s1.LineNumber] ∧ d2.Lines = [s2.LineNumber]) := by
  have hfirst : ∀ l : List GoString,
      (firstOccurrences id l).Nodup ∧ ∀ fp, fp ∈ firstOccurrences id l ↔ fp ∈ l := by
    intro l
    have h1 := firstOccurrences_nodup id l
    have h2 := mem_map_firstOccurrences id l
    simp only [List.map_id] at h1 h2
    exact ⟨h1, h2⟩
  refine ⟨?_, hfirst, ?_⟩
  · have hall : ∀ s ∈ secrets, ∃ rel, GetRelativeFilename s.FileName scanRoot = some rel :=
      liesUnder_prefix scanRoot secrets secrets [] hunder (by simp)
    refine ⟨_, ReduceAndExploit_eq hook this heap world secrets scanRoot hall, ?_⟩
    intro file
    have hfp : ((reduceResult hook this heap world secrets scanRoot).fileDefects.Defects
        file).getD [] =
        addressesOf heap.length scanRoot (firstOccurrences (Secret.key scanRoot) secrets)
          file := entryOf_getD _ _ _ _
    have hmap := reduceResult_fingerprints hook this heap world secrets scanRoot file
    rw [firstOccurrences_filter_file] at hmap
    refine ⟨by rw [hfp]; exact hmap, ?_, ?_⟩
    · rw [hfp]
      have hnd := (hfirst ((secrets.filter (fun s =>
        GetRelativeFilename s.FileName scanRoot = some file.Filename)).map
          (fun s => s.ID))).1.map (Option.some_injective _)
      rw [← hmap] at hnd
      exact List.Nodup.of_map _ hnd
    · simp only [reduceResult]
      rw [entryOf_eq_none_iff]
      constructor
      · intro h s hs hrel
        have hkey : s.key scanRoot ∈ (firstOccurrences (Secret.key scanRoot) secrets).map
            (Secret.key scanRoot) :=
          (mem_map_firstOccurrences _ _ _).mpr (List.mem_map_of_mem _ hs)
        obtain ⟨t, ht, htkey⟩ := List.mem_map.mp hkey
        exact h t ht ((congrArg Prod.fst htkey).trans hrel)
      · intro h s hs
        exact h s ((firstOccurrences_sublist (Secret.key scanRoot) secrets).subset hs)
  · intro s1 s2 sep rel hs1 hs2 hid
    have hrel1 : GetRelativeFilename s1.FileName scanRoot = some rel := by
      rw [hs1]; exact GetRelativeFilename_append scanRoot rel sep
    have hrel2 : GetRelativeFilename s2.FileName scanRoot = some rel := by
      rw [hs2]; exact hrel1
    have hkey : ¬ s2.key scanRoot = s1.key scanRoot :=
      fun h => hid (congrArg Prod.snd h).symm
    have hkey1 : ¬ s1.key scanRoot = s2.key scanRoot := fun h => hkey h.symm
    have hrun := ReduceAndExploit_eq hook this heap world [s1, s2] scanRoot
      (by
        intro t ht
        simp only [List.mem_cons, List.mem_singleton, List.not_mem_nil, or_false] at ht
        rcases ht with rfl | rfl
        · exact ⟨rel, hrel1⟩
        · exact ⟨rel, hrel2⟩)
    have hheap : (reduceResult hook this heap world [s1, s2] scanRoot).heap =
        heap ++ [{ Lines := [s1.LineNumber], secretID := s1.ID, Tag := s1.Rule.Tag,
                   AdditionalInfo := (s1.Exploit hook world).1 },
                 { Lines := [s2.LineNumber], secretID := s2.ID, Tag := s2.Rule.Tag,
                   AdditionalInfo := (s2.Exploit hook (s1.Exploit hook world).2).1 }] := by
      simp [reduceResult, firstOccurrences, exploitAll, recordOf, linesOf, hkey, hkey1]
    refine ⟨_, heap.length, heap.length + 1,
      { Lines := [s1.LineNumber], secretID := s1.ID, Tag := s1.Rule.Tag,
        AdditionalInfo := (s1.Exploit hook world).1 },
      { Lines := [s2.LineNumber], secretID := s2.ID, Tag := s2.Rule.Tag,
        AdditionalInfo := (s2.Exploit hook (s1.Exploit hook world).2).1 },
      hrun, ?_, Nat.ne_of_lt (Nat.lt_succ_self _), ?_, ?_, rfl, rfl, rfl, rfl⟩
    · simp [reduceResult, firstOccurrences, entryOf, addressesOf, List.enum_cons, hrel1,
        hrel2, hkey, hkey1]
    · rw [hheap, List.getElem?_append_right (Nat.le_refl _), Nat.sub_self]
      rfl
    · rw [hheap, List.getElem?_append_right (Nat.le_add_right _ _), Nat.add_sub_cancel_left]
      rfl

/-- Witness of C6: the three secrets of `exSecrets`, and two secrets of the file `r/f`
with different fingerprints on the same line 3. -/
theorem C6_ReduceAndExploit_one_defect_per_fingerprint_witness :
    (∀ s ∈ exSecrets, liesUnder [114] s.FileName) ∧
    (∃ out, (exReport 5).ReduceAndExploit exHook [] () exSecrets [114] = some out ∧
      ∀ file : File,
        ((out.fileDefects.Defects file).getD []).map
            (fun p => (out.heap[p]?).map Defect.secretID) =
          (firstOccurrences id
            ((exSecrets.filter (fun s =>
              GetRelativeFilename s.FileName [114] = some file.Filename)).map
                (fun s => s.ID))).map some ∧
        ((out.fileDefects.Defects file).getD []).Nodup ∧
        (out.fileDefects.Defects file = none ↔
          ∀ s ∈ exSecrets, GetRelativeFilename s.FileName [114] ≠ some file.Filename)) ∧
    (∃ out p1 p2 d1 d2,
        (exReport 5).ReduceAndExploit exHook [] () [exSecret [1] 3, exSecret [2] 3] [114] =
          some out ∧
        out.fileDefects.Defects { Filename := [102] } = some [p1, p2] ∧ p1 ≠ p2 ∧
        out.heap[p1]? = some d1 ∧ out.heap[p2]? = some d2 ∧
        d1.secretID = (exSecret [1] 3).ID ∧ d2.secretID = (exSecret [2] 3).ID ∧
        d1.Lines = [(exSecret [1] 3).LineNumber] ∧ d2.Lines = [(exSecret [2] 3).LineNumber]) :=
  ⟨exSecrets_liesUnder,
    (C6_ReduceAndExploit_one_defect_per_fingerprint exHook (exReport 5) [] () exSecrets [114]
      exSecrets_liesUnder).1,
    (C6_ReduceAndExploit_one_defect_per_fingerprint exHook (exReport 5) [] () exSecrets [114]
      exSecrets_liesUnder).2.2 (exSecret [1] 3) (exSecret [2] 3) 47 [102] rfl rfl
      (by decide)⟩

/-! ## Calls of the verification hook -/

theorem firstOccurrences_first {α κ : Type} [DecidableEq κ] (key : α → κ) (l : List α)
    (a : α) (ha : a ∈ firstOccurrences key l) :
    ∃ pre post, l = pre ++ a :: post ∧ key a ∉ pre.map key := by
  induction l using List.reverseRecOn with
  | nil => simp [firstOccurrences] at ha
  | append_singleton l s ih =>
    rw [firstOccurrences_concat] at ha
    by_cases hmem : key s ∈ (firstOccurrences key l).map key
    · rw [if_pos hmem] at ha
      obtain ⟨pre, post, hsplit, hpre⟩ := ih ha
      exact ⟨pre, post ++ [s], by rw [hsplit]; simp, hpre⟩
    · rw [if_neg hmem] at ha
      rcases List.mem_append.mp ha with ha | ha
      · obtain ⟨pre, post, hsplit, hpre⟩ := ih ha
        exact ⟨pre, post ++ [s], by rw [hsplit]; simp, hpre⟩
      · rw [List.mem_singleton] at ha
        subst ha
        exact ⟨l, [], rfl, fun h => hmem ((mem_map_firstOccurrences key l _).mpr h)⟩

/-- Claim C7: during `ReduceAndExploit` on secrets whose file names all lie under
`scanRoot`, `Exploit` is called exactly once for each distinct pair (relative file name,
fingerprint), on the first secret of the pair in input order, and never for a later
occurrence: the calls are the calls on the first occurrences, in input order, each made
in the world the previous one left; no pair is called twice, every pair of the input is
called, every call is on a secret with no earlier secret of the same pair; and, position
by position, processing a secret adds one call when its pair did not occur before and no
call otherwise. -/
theorem C7_ReduceAndExploit_hook_once {σ : Type} (hook : ExploitHook σ) (this : Report)
    (heap : Heap) (world : σ) (secrets : List Secret) (scanRoot : GoString)
    (hunder : ∀ s ∈ secrets, liesUnder scanRoot s.FileName) :
    ∃ out, this.ReduceAndExploit hook heap world secrets scanRoot = some out ∧
      (out.exploited, out.world) =
        exploitAll hook world (firstOccurrences (Secret.key scanRoot) secrets) ∧
      out.exploited.map Prod.fst = firstOccurrences (Secret.key scanRoot) secrets ∧
      (out.exploited.map (fun c => c.1.key scanRoot)).Nodup ∧
      (∀ s ∈ secrets, s.key scanRoot ∈ out.exploited.map (fun c => c.1.key scanRoot)) ∧
      (∀ c ∈ out.exploited, ∃ pre post,
        secrets = pre ++ c.1 :: post ∧ c.1.key scanRoot ∉ pre.map (Secret.key scanRoot)) ∧
      (∀ pre s post, secrets = pre ++ s :: post →
        ∃ before after,
          this.ReduceAndExploit hook heap world pre scanRoot = some before ∧
          this.ReduceAndExploit hook heap world (pre ++ [s]) scanRoot = some after ∧
          (after.exploited, after.world) =
            if s.key scanRoot ∈ pre.map (Secret.key scanRoot) then
              (before.exploited, before.world)
            else
              (before.exploited ++ [(s, (s.Exploit hook before.world).1)],
                (s.Exploit hook before.world).2)) := by
  have hall : ∀ s ∈ secrets, ∃ rel, GetRelativeFilename s.FileName scanRoot = some rel :=
    liesUnder_prefix scanRoot secrets secrets [] hunder (by simp)
  have hfst := exploitAll_map_fst hook world (firstOccurrences (Secret.key scanRoot) secrets)
  have hkeys : (exploitAll hook world (firstOccurrences (Secret.key scanRoot) secrets)).1.map
      (fun c => c.1.key scanRoot) =
      (firstOccurrences (Secret.key scanRoot) secrets).map (Secret.key scanRoot) := by
    conv_rhs => rw [← hfst]
    rw [List.map_map]
    rfl
  refine ⟨_, ReduceAndExploit_eq hook this heap world secrets scanRoot hall, rfl, hfst,
    ?_, ?_, ?_, ?_⟩
  · simp only [reduceResult, hkeys]
    exact firstOccurrences_nodup _ _
  · intro s hs
    simp only [reduceResult, hkeys]
    exact (mem_map_firstOccurrences _ _ _).mpr (List.mem_map_of_mem _ hs)
  · intro c hc
    apply firstOccurrences_first
    rw [← hfst]
    exact List.mem_map_of_mem _ hc
  · intro pre s post hsplit
    have hpre := liesUnder_prefix scanRoot secrets pre (s :: post) hunder hsplit
    have hpre1 := liesUnder_prefix scanRoot secrets (pre ++ [s]) post hunder (by simp [hsplit])
    refine ⟨_, _, ReduceAndExploit_eq hook this heap world pre scanRoot hpre,
      ReduceAndExploit_eq hook this heap world (pre ++ [s]) scanRoot hpre1, ?_⟩
    simp only [reduceResult, firstOccurrences_concat]
    by_cases hmem : s.key scanRoot ∈ pre.map (Secret.key scanRoot)
    · rw [if_pos ((mem_map_firstOccurrences _ _ _).mpr hmem), if_pos hmem]
    · rw [if_neg (fun h => hmem ((mem_map_firstOccurrences _ _ _).mp h)), if_neg hmem,
        exploitAll_concat]

/-- The secrets of `exActiveSecrets` lie under the directory `r`. -/
theorem exActiveSecrets_liesUnder : ∀ s ∈ exActiveSecrets, liesUnder [114] s.FileName := by
  intro s hs
  simp only [exActiveSecrets, List.mem_cons, List.mem_singleton, List.not_mem_nil,
    or_false] at hs
  rcases hs with rfl | rfl | rfl | rfl <;> exact ⟨47, [102], rfl⟩

/-- Witness of C7: the four secrets of `exActiveSecrets` (three distinct pairs) with the
hook `exCountingHook`. -/
theorem C7_ReduceAndExploit_hook_once_witness :
    (∀ s ∈ exActiveSecrets, liesUnder [114] s.FileName) ∧
    ∃ out, (exReport 5).ReduceAndExploit exCountingHook [] 0 exActiveSecrets [114] = some out ∧
      (out.exploited, out.world) =
        exploitAll exCountingHook 0 (firstOccurrences (Secret.key [114]) exActiveSecrets) ∧
      out.exploited.map Prod.fst = firstOccurrences (Secret.key [114]) exActiveSecrets ∧
      (out.exploited.map (fun c => c.1.key [114])).Nodup ∧
      (∀ s ∈ exActiveSecrets, s.key [114] ∈ out.exploited.map (fun c => c.1.key [114])) ∧
      (∀ c ∈ out.exploited, ∃ pre post,
        exActiveSecrets = pre ++ c.1 :: post ∧ c.1.key [114] ∉ pre.map (Secret.key [114])) ∧
      (∀ pre s post, exActiveSecrets = pre ++ s :: post →
        ∃ before after,
          (exReport 5).ReduceAndExploit exCountingHook [] 0 pre [114] = some before ∧
          (exReport 5).ReduceAndExploit exCountingHook [] 0 (pre ++ [s]) [114] = some after ∧
          (after.exploited, after.world) =
            if s.key [114] ∈ pre.map (Secret.key [114]) then
              (before.exploited, before.world)
            else
              (before.exploited ++ [(s, (s.Exploit exCountingHook before.world).1)],
                (s.Exploit exCountingHook before.world).2)) :=
  ⟨exActiveSecrets_liesUnder,
    C7_ReduceAndExploit_hook_once exCountingHook (exReport 5) [] 0 exActiveSecrets [114]
      exActiveSecrets_liesUnder⟩

/-! ## The result of the hook in the new Defect -/

theorem exploitAll_append_left {σ : Type} (hook : ExploitHook σ) (world : σ)
    (l1 l2 : List Secret) :
    ∃ r, (exploitAll hook world (l1 ++ l2)).1 = (exploitAll hook world l1).1 ++ r := by
  induction l2 using List.reverseRecOn with
  | nil => exact ⟨[], by simp⟩
  | append_singleton l a ih =>
    obtain ⟨r, hr⟩ := ih
    rw [← List.append_assoc, exploitAll_concat]
    simp only [hr]
    exact ⟨r ++ [(a, (a.Exploit hook (exploitAll hook world (l1 ++ l)).2).1)], by simp⟩

/-- The call made for a secret whose pair did not occur before, as it stands in the
final list of calls. -/
theorem exploitAll_firstOccurrences_split {σ : Type} (hook : ExploitHook σ) (world : σ)
    (scanRoot : GoString) (pre post : List Secret) (s : Secret)
    (hnew : s.key scanRoot ∉ pre.map (Secret.key scanRoot)) :
    (firstOccurrences (Secret.key scanRoot) (pre ++ s :: post))[
        (firstOccurrences (Secret.key scanRoot) pre).length]? = some s ∧
    (exploitAll hook world (firstOccurrences (Secret.key scanRoot) (pre ++ s :: post))).1[
        (firstOccurrences (Secret.key scanRoot) pre).length]? =
      some (s, (s.Exploit hook
        (exploitAll hook world (firstOccurrences (Secret.key scanRoot) pre)).2).1) := by
  have hsplit : pre ++ s :: post = (pre ++ [s]) ++ post := by simp
  have hnewF : s.key scanRoot ∉ (firstOccurrences (Secret.key scanRoot) pre).map
      (Secret.key scanRoot) :=
    fun h => hnew ((mem_map_firstOccurrences _ _ _).mp h)
  obtain ⟨r, hr⟩ := firstOccurrences_append_left (Secret.key scanRoot) (pre ++ [s]) post
  rw [firstOccurrences_concat, if_neg hnewF] at hr
  obtain ⟨r1, hr1⟩ := exploitAll_append_left hook world
    (firstOccurrences (Secret.key scanRoot) pre ++ [s]) r
  rw [exploitAll_concat] at hr1
  simp only at hr1
  rw [hsplit, hr]
  constructor
  · rw [List.append_assoc, List.getElem?_append_right (Nat.le_refl _), Nat.sub_self]
    simp
  · rw [hr1, List.append_assoc,
      List.getElem?_append_right (by rw [exploitAll_length]),
      exploitAll_length, Nat.sub_self]
    simp

/-- Claim C8: `Exploit` returns the output of the hook when the rule names an `ExploitFn`
and the call succeeds, and the empty string when the call returns an error or the rule
names no `ExploitFn`; and for secrets whose file names all lie under `scanRoot`,
`ReduceAndExploit` returns (whatever the hook answers), the Defect created for a secret
whose pair did not occur before (allocated at the first free address when that secret is
processed, and listed for its file) has as `AdditionalInfo` exactly the string `Exploit`
returned for that secret, and every secret of the input is processed: its line number is
in the `Lines` of the Defect of its fingerprint in the list of its file. -/
theorem C8_Exploit_result_stored {σ : Type} (hook : ExploitHook σ) (this : Report)
    (heap : Heap) (world : σ) (secrets : List Secret) (scanRoot : GoString)
    (hunder : ∀ s ∈ secrets, liesUnder scanRoot s.FileName) :
    (∀ (s : Secret) (w w1 : σ) (output : GoString), s.Rule.ExploitFn ≠ [] →
      hook.Run s.Rule.ExploitFn s.Value s.FileName w = ((output, none), w1) →
      s.Exploit hook w = (output, w1)) ∧
    (∀ (s : Secret) (w w1 : σ) (output err : GoString), s.Rule.ExploitFn ≠ [] →
      hook.Run s.Rule.ExploitFn s.Value s.FileName w = ((output, some err), w1) →
      s.Exploit hook w = ([], w1)) ∧
    (∀ (s : Secret) (w : σ), s.Rule.ExploitFn = [] → s.Exploit hook w = ([], w)) ∧
    ∃ out, this.ReduceAndExploit hook heap world secrets scanRoot = some out ∧
      (∀ pre s post, secrets = pre ++ s :: post →
        s.key scanRoot ∉ pre.map (Secret.key scanRoot) →
        ∃ before rel d,
          this.ReduceAndExploit hook heap world pre scanRoot = some before ∧
          GetRelativeFilename s.FileName scanRoot = some rel ∧
          before.heap.length ∈ (out.fileDefects.Defects { Filename := rel }).getD [] ∧
          out.heap[before.heap.length]? = some d ∧
          d.secretID = s.ID ∧
          d.AdditionalInfo = (s.Exploit hook before.world).1) ∧
      (∀ s ∈ secrets, ∃ rel p d,
        GetRelativeFilename s.FileName scanRoot = some rel ∧
        p ∈ (out.fileDefects.Defects { Filename := rel }).getD [] ∧
        out.heap[p]? = some d ∧ d.secretID = s.ID ∧ s.LineNumber ∈ d.Lines) := by
  refine ⟨?_, ?_, ?_, ?_⟩
  · intro s w w1 output hfn hrun
    simp [Secret.Exploit, hfn, hrun]
  · intro s w w1 output err hfn hrun
    simp [Secret.Exploit, hfn, hrun]
  · intro s w hfn
    simp [Secret.Exploit, hfn]
  · have hall : ∀ s ∈ secrets, ∃ rel, GetRelativeFilename s.FileName scanRoot = some rel :=
      liesUnder_prefix scanRoot secrets secrets [] hunder (by simp)
    refine ⟨_, ReduceAndExploit_eq hook this heap world secrets scanRoot hall, ?_, ?_⟩
    · intro pre s post hsplit hnew
      have hpre := liesUnder_prefix scanRoot secrets pre (s :: post) hunder hsplit
      obtain ⟨rel, hrel⟩ := hall s (by rw [hsplit]; simp)
      obtain ⟨hF, hC⟩ := exploitAll_firstOccurrences_split hook world scanRoot pre post s hnew
      rw [← hsplit] at hF hC
      obtain ⟨info, hc, hh⟩ := reduceResult_heap_getElem? hook this heap world secrets
        scanRoot _ s hF
      rw [hC] at hc
      have hinfo : info = (s.Exploit hook
          (exploitAll hook world (firstOccurrences (Secret.key scanRoot) pre)).2).1 := by
        have := Option.some.inj hc
        exact (congrArg Prod.snd this).symm
      have hlen : (reduceResult hook this heap world pre scanRoot).heap.length =
          heap.length + (firstOccurrences (Secret.key scanRoot) pre).length := by
        simp [reduceResult, exploitAll_length]
      refine ⟨_, rel, _, ReduceAndExploit_eq hook this heap world pre scanRoot hpre, hrel,
        ?_, by rw [hlen]; exact hh, rfl, ?_⟩
      · rw [hlen]
        simp only [reduceResult, entryOf_getD]
        exact (mem_addressesOf _ _ _ _ _).mpr ⟨_, s, hF, hrel, rfl⟩
      · simp only [recordOf, reduceResult]
        exact hinfo
    · intro s hs
      obtain ⟨rel, hrel⟩ := hall s hs
      have hkey : s.key scanRoot ∈ (firstOccurrences (Secret.key scanRoot) secrets).map
          (Secret.key scanRoot) :=
        (mem_map_firstOccurrences _ _ _).mpr (List.mem_map_of_mem _ hs)
      obtain ⟨s0, hs0, hkey0⟩ := List.mem_map.mp hkey
      obtain ⟨k, hk⟩ := List.getElem?_of_mem hs0
      obtain ⟨info, -, hh⟩ := reduceResult_heap_getElem? hook this heap world secrets
        scanRoot k s0 hk
      refine ⟨rel, heap.length + k, _, hrel, ?_, hh, congrArg Prod.snd hkey0, ?_⟩
      · simp only [reduceResult, entryOf_getD]
        exact (mem_addressesOf _ _ _ _ _).mpr
          ⟨k, s0, hk, (congrArg Prod.fst hkey0).trans hrel, rfl⟩
      · simp only [recordOf, linesOf, List.mem_map, List.mem_filter, decide_eq_true_eq]
        exact ⟨s, ⟨hs, hkey0.symm⟩, rfl⟩

/-- Witness of C8: a call of the hook that succeeds, one that fails, a rule that names no
function, and the four secrets of `exActiveSecrets` with the hook `exCountingHook`, whose
second call fails. -/
theorem C8_Exploit_result_stored_witness :
    (∀ s ∈ exActiveSecrets, liesUnder [114] s.FileName) ∧
    (exSecret [1] 3).Rule.ExploitFn = [] ∧
    (exSecret [1] 3).Exploit exCountingHook 0 = ([], 0) ∧
    ({ exSecret [1] 3 with Rule := exActiveRule } : Secret).Rule.ExploitFn ≠ [] ∧
    ({ exSecret [1] 3 with Rule := exActiveRule } : Secret).Exploit exCountingHook 0 =
      ([0], 1) ∧
    ({ exSecret [1] 3 with Rule := exActiveRule } : Secret).Exploit exCountingHook 1 =
      ([], 2) ∧
    ∃ out, (exReport 5).ReduceAndExploit exCountingHook [] 0 exActiveSecrets [114] = some out ∧
      (∀ pre s post, exActiveSecrets = pre ++ s :: post →
        s.key [114] ∉ pre.map (Secret.key [114]) →
        ∃ before rel d,
          (exReport 5).ReduceAndExploit exCountingHook [] 0 pre [114] = some before ∧
          GetRelativeFilename s.FileName [114] = some rel ∧
          before.heap.length ∈ (out.fileDefects.Defects { Filename := rel }).getD [] ∧
          out.heap[before.heap.length]? = some d ∧
          d.secretID = s.ID ∧
          d.AdditionalInfo = (s.Exploit exCountingHook before.world).1) ∧
      (∀ s ∈ exActiveSecrets, ∃ rel p d,
        GetRelativeFilename s.FileName [114] = some rel ∧
        p ∈ (out.fileDefects.Defects { Filename := rel }).getD [] ∧
        out.heap[p]? = some d ∧ d.secretID = s.ID ∧ s.LineNumber ∈ d.Lines) :=
  ⟨exActiveSecrets_liesUnder, rfl,
    (C8_Exploit_result_stored exCountingHook (exReport 5) [] 0 exActiveSecrets [114]
      exActiveSecrets_liesUnder).2.2.1 (exSecret [1] 3) 0 rfl,
    by decide,
    (C8_Exploit_result_stored exCountingHook (exReport 5) [] 0 exActiveSecrets [114]
      exActiveSecrets_liesUnder).1 { exSecret [1] 3 with Rule := exActiveRule } 0 1 [0]
      (by decide) rfl,
    (C8_Exploit_result_stored exCountingHook (exReport 5) [] 0 exActiveSecrets [114]
      exActiveSecrets_liesUnder).2.1 { exSecret [1] 3 with Rule := exActiveRule } 1 2 [1]
      [101] (by decide) rfl,
    (C8_Exploit_result_stored exCountingHook (exReport 5) [] 0 exActiveSecrets [114]
      exActiveSecrets_liesUnder).2.2.2⟩

/-! ## Rule.Match -/

/-- The result `found` of `matchOneOf` tells whether some regular expression of the list
matches the text. -/
theorem matchOneOf_found (text : GoString) (rules : List Regexp) :
    (matchOneOf text rules).2 = rules.any (fun rule => rule.MatchString text) := by
  have hgen : ∀ acc : List GoString × Bool,
      (rules.foldl (matchOneOf.step text) acc).2 =
        (acc.2 || rules.any (fun rule => rule.MatchString text)) := by
    induction rules with
    | nil => intro acc; simp
    | cons rule rest ih =>
      intro acc
      rw [List.foldl_cons, ih, List.any_cons]
      by_cases hm : rule.MatchString text = true
      · have hstep : (matchOneOf.step text acc rule).2 = true := by
          simp only [matchOneOf.step, hm, if_true]
          split <;> rfl
        rw [hstep, hm]
        simp
      · have hm1 : rule.MatchString text = false := by simpa using hm
        simp [matchOneOf.step, hm1]
  rw [matchOneOf, hgen]
  simp

/-- The loop of `Rule.Match` keeps, in order, the candidates that pass the entropy test,
provided no exclusion matches; `found` tells whether it kept one. -/
theorem Match_fold (entropy32 : GoString → GoFloat) (rule : Rule) (text : GoString)
    (candidates : List GoString) (acc : List GoString × Bool) :
    candidates.foldl (Rule.Match.step entropy32 rule text) acc =
      (acc.1 ++ candidates.filter (fun c =>
          (rule.Entropy.isZero || (entropy32 c).ge rule.Entropy) &&
            !rule.matchExclusionRule text),
        acc.2 || candidates.any (fun c =>
          (rule.Entropy.isZero || (entropy32 c).ge rule.Entropy) &&
            !rule.matchExclusionRule text)) := by
  induction candidates generalizing acc with
  | nil => simp
  | cons c rest ih =>
    rw [List.foldl_cons, ih]
    by_cases h1 : (rule.Entropy.isZero || (entropy32 c).ge rule.Entropy) = true
    · by_cases h2 : rule.matchExclusionRule text = true
      · simp [Rule.Match.step, h1, h2]
      · have h2f : rule.matchExclusionRule text = false := by simpa using h2
        simp [Rule.Match.step, h1, h2f, List.filter_cons]
    · have h1f : (rule.Entropy.isZero || (entropy32 c).ge rule.Entropy) = false := by
        simpa using h1
      simp [Rule.Match.step, h1f, List.filter_cons]

/-- The two results of `Rule.Match` in closed form. -/
theorem Match_eq (entropy32 : GoString → GoFloat) (rule : Rule) (text : GoString) :
    rule.Match entropy32 text =
      if (rule.matchTargetRule text).2 then
        ((rule.matchTargetRule text).1.filter (fun c =>
            (rule.Entropy.isZero || (entropy32 c).ge rule.Entropy) &&
              !rule.matchExclusionRule text),
          (rule.matchTargetRule text).1.any (fun c =>
            (rule.Entropy.isZero || (entropy32 c).ge rule.Entropy) &&
              !rule.matchExclusionRule text))
      else ([], false) := by
  unfold Rule.Match
  simp only [Match_fold, List.nil_append, Bool.false_or]

/-- Claim C9: for every rule and every line, if at least one `Except` regular expression
of the rule matches the line, `Rule.Match` returns the empty match list (and `found` is
false), whatever the `Target` expressions match or capture, whatever the entropy of the
candidates and whatever the entropy threshold of the rule, 0 included. -/
theorem C9_Match_except_vetoes (entropy32 : GoString → GoFloat) (rule : Rule)
    (text : GoString) (hexcept : ∃ e ∈ rule.Except, e.MatchString text = true) :
    rule.Match entropy32 text = ([], false) := by
  have hex : rule.matchExclusionRule text = true := by
    rw [Rule.matchExclusionRule, matchOneOf_found, List.any_eq_true]
    exact hexcept
  rw [Match_eq]
  split
  · simp [hex]
  · rfl

/-- Witness of C9: the `Target` and the `Except` of `exVetoRule` both match the line `x`,
and the entropy check is disabled. -/
theorem C9_Match_except_vetoes_witness :
    (∃ e ∈ exVetoRule.Except, e.MatchString [120] = true) ∧
    (∃ t ∈ exVetoRule.Target, t.MatchString [120] = true) ∧
    exVetoRule.Entropy.isZero = true ∧
    exVetoRule.Match exEntropy [120] = ([], false) :=
  ⟨⟨exRegexp, by simp [exVetoRule], rfl⟩, ⟨exRegexp, by simp [exVetoRule], rfl⟩, by decide,
    C9_Match_except_vetoes exEntropy exVetoRule [120] ⟨exRegexp, by simp [exVetoRule], rfl⟩⟩

/-- Counterexample to C10 as stated: the `Target` of `exVetoRule` matches the line `x`
but an `Except` expression matches it too, and the `Target` of `exEntropyRule` matches
the line `x` but the candidate `x` (entropy 0) is below the threshold 3; in both cases
`Rule.Match` returns `found = false`. -/
theorem C10_Match_found_counterexample :
    ((∃ t ∈ exVetoRule.Target, t.MatchString [120] = true) ∧
      exVetoRule.Match exEntropy [120] = ([], false)) ∧
    ((∃ t ∈ exEntropyRule.Target, t.MatchString [120] = true) ∧
      exEntropyRule.Match exEntropy [120] = ([], false)) :=
  ⟨⟨⟨exRegexp, by simp [exVetoRule], rfl⟩, by decide⟩,
    ⟨⟨exRegexp, by simp [exEntropyRule], rfl⟩, by decide⟩⟩

/-- Claim C10, amended: the boolean returned by `Rule.Match` is true exactly when the
returned match list is not empty, that is exactly when some `Target` expression matches
the line, no `Except` expression matches the line, and at least one collected candidate
passes the entropy test (threshold 0, or entropy at least the threshold). -/
theorem C10_Match_found_iff (entropy32 : GoString → GoFloat) (rule : Rule)
    (text : GoString) :
    ((rule.Match entropy32 text).2 = true ↔ (rule.Match entropy32 text).1 ≠ []) ∧
    ((rule.Match entropy32 text).2 = true ↔
      (∃ t ∈ rule.Target, t.MatchString text = true) ∧
      (¬ ∃ e ∈ rule.Except, e.MatchString text = true) ∧
      ∃ c ∈ (rule.matchTargetRule text).1,
        (rule.Entropy.isZero || (entropy32 c).ge rule.Entropy) = true) := by
  have hex : rule.matchExclusionRule text = true ↔
      ∃ e ∈ rule.Except, e.MatchString text = true := by
    rw [Rule.matchExclusionRule, matchOneOf_found, List.any_eq_true]
  have htg : (rule.matchTargetRule text).2 = true ↔
      ∃ t ∈ rule.Target, t.MatchString text = true := by
    rw [Rule.matchTargetRule, matchOneOf_found, List.any_eq_true]
  rw [Match_eq]
  by_cases ht : (rule.matchTargetRule text).2 = true
  · rw [if_pos ht]
    refine ⟨?_, ?_⟩
    · simp only [List.any_eq_true, ne_eq, List.filter_eq_nil_iff, not_forall,
        Classical.not_imp, Decidable.not_not, exists_prop]
    · simp only [List.any_eq_true, Bool.and_eq_true, Bool.not_eq_true', ← htg, ht, true_and]
      rw [← hex]
      constructor
      · rintro ⟨c, hc, hacc, hno⟩
        exact ⟨by simp [hno], c, hc, hacc⟩
      · rintro ⟨hno, c, hc, hacc⟩
        exact ⟨c, hc, hacc, by simpa using hno⟩
  · rw [if_neg ht]
    refine ⟨by simp, ?_⟩
    rw [← htg]
    simp [ht]

/-- Witness of C10: the `Target` of `exPlainRule` matches the line `x`, no `Except`
expression does, and the entropy check is disabled: `found` is true. -/
theorem C10_Match_found_iff_witness :
    (exPlainRule.Match exEntropy [120]).2 = true ∧
    exPlainRule.Match exEntropy [120] = ([[120]], true) :=
  ⟨(C10_Match_found_iff exEntropy exPlainRule [120]).2.mpr
      ⟨⟨exRegexp, by simp [exPlainRule], rfl⟩, by simp [exPlainRule],
        [120], by decide, by decide⟩,
    by decide⟩

/-! ## Candidates of several Target expressions -/

/-- Claim C11, evaluated on the code: the rule has the two `Target` patterns `a` and `b`,
neither with a group named `suspect`, no `Except` and the entropy threshold 0; both
patterns match the line `ab`, and the full matches of `b` on it are `b`; yet `Rule.Match`
returns only `a`: the test `len(matches) == 0` looks at the candidates collected so far
from all expressions, so an expression without the group adds its matches only when no
earlier expression has added any. -/
theorem C11_Match_second_target_dropped :
    exTwoTargetsRule.Entropy.isZero = true ∧
    exTwoTargetsRule.matchExclusionRule [97, 98] = false ∧
    (exLiteral 97).MatchString [97, 98] = true ∧
    (exLiteral 98).MatchString [97, 98] = true ∧
    (exLiteral 97).FindAllString [97, 98] = [[97]] ∧
    (exLiteral 98).FindAllString [97, 98] = [[98]] ∧
    exTwoTargetsRule.Match exEntropy [97, 98] = ([[97]], true) := by
  decide

/-! ## The entropy test -/

/-- When no expression of the list matches, `matchOneOf` collects nothing. -/
theorem matchOneOf_not_found (text : GoString) (rules : List Regexp)
    (h : (matchOneOf text rules).2 = false) : (matchOneOf text rules).1 = [] := by
  have hgen : ∀ (rs : List Regexp) (acc : List GoString × Bool),
      (acc.2 = false → acc.1 = []) →
      (rs.foldl (matchOneOf.step text) acc).2 = false →
      (rs.foldl (matchOneOf.step text) acc).1 = [] := by
    intro rs
    induction rs with
    | nil => intro acc hacc h; exact hacc h
    | cons rule rest ih =>
      intro acc hacc
      rw [List.foldl_cons]
      apply ih
      intro hstep
      by_cases hm : rule.MatchString text = true
      · exfalso
        have : (matchOneOf.step text acc rule).2 = true := by
          simp only [matchOneOf.step, hm, if_true]
          split <;> rfl
        rw [this] at hstep
        cases hstep
      · have hm1 : rule.MatchString text = false := by simpa using hm
        simp only [matchOneOf.step, hm1, Bool.false_eq_true, if_false] at hstep ⊢
        exact hacc hstep
  exact hgen rules ([], false) (fun _ => rfl) h

/-- Claim C12: for every rule and every line on which no `Except` expression matches,
the values `Rule.Match` returns are the collected candidates, in collection order, for
which the entropy threshold of the rule is 0 or the entropy of the candidate (the value
`float32(Entropy(candidate))`, here `entropy32 candidate`) is at least the threshold,
each candidate being tested on its own; in particular with the threshold 0 every
collected candidate is returned. -/
theorem C12_Match_entropy_filter (entropy32 : GoString → GoFloat) (rule : Rule)
    (text : GoString) (hno : ¬ ∃ e ∈ rule.Except, e.MatchString text = true) :
    (rule.Match entropy32 text).1 =
      (rule.matchTargetRule text).1.filter
        (fun c => rule.Entropy.isZero || (entropy32 c).ge rule.Entropy) ∧
    (rule.Entropy.isZero = true →
      (rule.Match entropy32 text).1 = (rule.matchTargetRule text).1) := by
  have hex : rule.matchExclusionRule text = false := by
    have h : ¬ rule.matchExclusionRule text = true := by
      rw [Rule.matchExclusionRule, matchOneOf_found, List.any_eq_true]
      exact hno
    simpa using h
  have hmain : (rule.Match entropy32 text).1 =
      (rule.matchTargetRule text).1.filter
        (fun c => rule.Entropy.isZero || (entropy32 c).ge rule.Entropy) := by
    rw [Match_eq]
    by_cases ht : (rule.matchTargetRule text).2 = true
    · rw [if_pos ht]
      simp [hex]
    · rw [if_neg ht]
      have hnil : (rule.matchTargetRule text).1 = [] :=
        matchOneOf_not_found text rule.Target (by simpa using ht)
      simp [hnil]
  refine ⟨hmain, ?_⟩
  intro hzero
  rw [hmain]
  simp [hzero]

/-- Witness of C12: no `Except` expression of `exEntropyRule` matches the line `x`; its
threshold is 3 and the entropy of the candidate `x` is 0, so nothing is returned, while
the rule `exPlainRule` with the threshold 0 returns the candidate. -/
theorem C12_Match_entropy_filter_witness :
    (¬ ∃ e ∈ exEntropyRule.Except, e.MatchString [120] = true) ∧
    (exEntropyRule.Match exEntropy [120]).1 =
      (exEntropyRule.matchTargetRule [120]).1.filter
        (fun c => exEntropyRule.Entropy.isZero || (exEntropy c).ge exEntropyRule.Entropy) ∧
    (exEntropyRule.Match exEntropy [120]).1 = [] ∧
    (exPlainRule.Match exEntropy [120]).1 = (exPlainRule.matchTargetRule [120]).1 ∧
    (exPlainRule.Match exEntropy [120]).1 = [[120]] :=
  ⟨by simp [exEntropyRule],
    (C12_Match_entropy_filter exEntropy exEntropyRule [120] (by simp [exEntropyRule])).1,
    by decide,
    (C12_Match_entropy_filter exEntropy exPlainRule [120] (by simp [exPlainRule])).2
      (by decide),
    by decide⟩

/-! ## Entropy of repeated characters -/

/-- A byte below 128 is a rune of its own. -/
theorem DecodeRuneInString_single_byte (c : UInt8) (hc : c.toNat < 128) (rest : GoString) :
    DecodeRuneInString (c :: rest) = (c.toNat, 1) := by
  simp [DecodeRuneInString, hc]

theorem runesAux_replicate (c : UInt8) (hc : c.toNat < 128) (fuel L : Nat) (h : L ≤ fuel) :
    runesAux fuel (List.replicate L c) = List.replicate L c.toNat := by
  induction fuel generalizing L with
  | zero =>
    have hL : L = 0 := Nat.le_zero.mp h
    subst hL
    rfl
  | succ fuel ih =>
    cases L with
    | zero => simp [runesAux]
    | succ L =>
      have hne : List.replicate (L + 1) c ≠ [] := by simp [List.replicate_succ]
      rw [runesAux, if_neg hne, List.replicate_succ, DecodeRuneInString_single_byte c hc]
      simp only [List.drop_succ_cons, List.drop_zero]
      rw [ih L (Nat.le_of_succ_le_succ h), List.replicate_succ]

theorem foldl_incrementCount_replicate {F : Type} [Field F] (r : Nat) (x : F) (n : Nat) :
    (List.replicate n r).foldl incrementCount [(r, x)] = [(r, x + (n : F))] := by
  induction n generalizing x with
  | zero => simp
  | succ n ih =>
    rw [List.replicate_succ, List.foldl_cons]
    have hstep : incrementCount [(r, x)] r = [(r, x + 1)] := by
      simp [incrementCount]
    rw [hstep, ih]
    congr 2
    push_cast
    ring

/-- For a character of one byte the code gives the entropy 0 to every string made of
`L ≥ 1` copies of it. -/
theorem Entropy_replicate_single_byte (c : UInt8) (hc : c.toNat < 128) (L : Nat)
    (hL : 1 ≤ L) : Entropy (Real.logb 2) (List.replicate L c) = 0 := by
  obtain ⟨n, rfl⟩ : ∃ n, L = n + 1 := ⟨L - 1, by omega⟩
  have hr : runes (List.replicate (n + 1) c) = List.replicate (n + 1) c.toNat := by
    unfold runes
    exact runesAux_replicate c hc _ _ (by simp)
  have hm : (List.replicate (n + 1) c.toNat).foldl incrementCount ([] : List (Nat × ℝ)) =
      [(c.toNat, (0 : ℝ) + 1 + (n : ℝ))] := by
    rw [List.replicate_succ, List.foldl_cons]
    have hstep : incrementCount ([] : List (Nat × ℝ)) c.toNat = [(c.toNat, 0 + 1)] := by
      simp [incrementCount]
    rw [hstep, foldl_incrementCount_replicate]
  unfold Entropy
  rw [hr, hm]
  simp only [List.foldl_cons, List.foldl_nil, List.length_replicate, zero_add]
  have hpos : ((n + 1 : ℕ) : ℝ) ≠ 0 := by positivity
  have hcast : ((n + 1 : ℕ) : ℝ) = 1 + (n : ℝ) := by push_cast; ring
  rw [hcast] at hpos ⊢
  field_simp

/-- Claim C13, evaluated on the code with real arithmetic: the string `é` is one
character (the rune U+00E9, written on the two bytes C3 A9) repeated once; the loop counts
one rune, but the length `len(s)` the code divides by and takes the logarithm of is the
number of bytes, 2, so `Entropy` gives `log2(2) - 0/2 = 1` and not 0. -/
theorem C13_Entropy_two_byte_character :
    runes [195, 169] = [233] ∧
    Entropy (Real.logb 2) [195, 169] = 1 ∧
    Entropy (Real.logb 2) [195, 169] ≠ 0 := by
  have hr : runes [195, 169] = [233] := by decide
  have he : Entropy (Real.logb 2) [195, 169] = 1 := by
    unfold Entropy
    rw [hr]
    simp [incrementCount]
  exact ⟨hr, he, by rw [he]; norm_num⟩

/-! ## Fingerprint and relative file name -/

/-- Claim C14: the fingerprint `NewSecret` sets depends only on the file name and the
secret value: for all line numbers and all rules the two secrets made from the same file
name and value have the same `ID`, which is the hexadecimal form of the digest of the
file name followed by the value. -/
theorem C14_NewSecret_fingerprint (md5Sum : List UInt8 → List UInt8)
    (fileName secretValue : GoString) (n1 n2 : Int) (r1 r2 : Rule) :
    (NewSecret md5Sum fileName secretValue n1 r1).ID =
      (NewSecret md5Sum fileName secretValue n2 r2).ID ∧
    (NewSecret md5Sum fileName secretValue n1 r1).ID =
      EncodeToString (md5Sum (fileName ++ secretValue)) :=
  ⟨rfl, rfl⟩

/-- Claim C15: for every root directory, every one-byte separator and every relative
path, `GetRelativeFilename` applied to the root followed by the separator and the path,
and to the root, returns the path. -/
theorem C15_GetRelativeFilename_strips_root (rootDir rel : GoString) (sep : UInt8) :
    GetRelativeFilename (rootDir ++ sep :: rel) rootDir = some rel :=
  GetRelativeFilename_append rootDir rel sep

/-- Claim C19: `GetRelativeFilename(fileName, rootDir)` fails (the slice is out of range)
exactly when `len(fileName) < len(rootDir) + 1`, in particular when `fileName` is
`rootDir`; in every other case it returns `fileName` without its first `len(rootDir) + 1`
bytes, whatever these bytes are: with the root `a` the name `xyz` gives `z`. -/
theorem C19_GetRelativeFilename_bounds (fileName rootDir : GoString) :
    (GetRelativeFilename fileName rootDir = none ↔ fileName.length < rootDir.length + 1) ∧
    GetRelativeFilename rootDir rootDir = none ∧
    (¬ fileName.length < rootDir.length + 1 →
      GetRelativeFilename fileName rootDir = some (fileName.drop (rootDir.length + 1))) ∧
    GetRelativeFilename [120, 121, 122] [97] = some [122] := by
  refine ⟨?_, ?_, ?_, by decide⟩
  · unfold GetRelativeFilename
    split
    · next h => simp only [reduceCtorEq, false_iff, not_lt]; exact h
    · next h => simp only [true_iff]; omega
  · simp [GetRelativeFilename]
  · intro h
    have h1 : rootDir.length + 1 ≤ fileName.length := by omega
    simp [GetRelativeFilename, h1]

/-- Witness of C19: the name `r/f` under the root `r`, and the root `r` itself. -/
theorem C19_GetRelativeFilename_bounds_witness :
    (¬ ([114, 47, 102] : GoString).length < ([114] : GoString).length + 1) ∧
    GetRelativeFilename [114, 47, 102] [114] =
      some (([114, 47, 102] : GoString).drop (([114] : GoString).length + 1)) ∧
    (([114] : GoString).length < ([114] : GoString).length + 1) ∧
    GetRelativeFilename [114] [114] = none :=
  ⟨by decide,
    (C19_GetRelativeFilename_bounds [114, 47, 102] [114]).2.2.1 (by decide),
    by decide,
    (C19_GetRelativeFilename_bounds [114] [114]).1.mpr (by decide)⟩

/-! ## Validation of the scan parameters -/

/-- The checks return an error for a bad parameter set, whatever error was pending. -/
theorem validateScanParameters_rejects (scanParameters : ScanParameters)
    (err : Option ParameterError)
    (hbad : scanParameters.configFilename = [] ∨
      (scanParameters.localScanDir = [] ∧
        (scanParameters.accessToken = [] ∨
          (scanParameters.repoName ≠ [] ∧
            (Split 47 scanParameters.repoName).length ≠ 2 ∧
            (Split 47 scanParameters.repoName).length ≠ 3) ∨
          scanParameters.lastModifiedScanCutoff < 0))) :
    ∃ e, validateScanParameters scanParameters err = (scanParameters, some e) := by
  unfold validateScanParameters
  by_cases hc : scanParameters.configFilename = []
  · exact ⟨_, by rw [if_pos hc]⟩
  · rw [if_neg hc]
    rcases hbad with hbad | ⟨hlocal, hbad⟩
    · exact absurd hbad hc
    · rw [if_pos hlocal]
      by_cases ht : scanParameters.accessToken = []
      · exact ⟨_, by rw [if_pos ht]⟩
      · rw [if_neg ht]
        by_cases hr : scanParameters.repoName ≠ [] ∧
            (Split 47 scanParameters.repoName).length ≠ 2 ∧
            (Split 47 scanParameters.repoName).length ≠ 3
        · exact ⟨_, by rw [if_pos hr]⟩
        · rw [if_neg hr]
          rcases hbad with hbad | hbad | hbad
          · exact absurd hbad ht
          · exact absurd hbad hr
          · exact ⟨_, by rw [if_pos hbad]⟩

/-- Claim C16: when `flagset.Parse` returns with the parameters `scanParameters`,
`initializeScanParameters` returns an error whenever no rule-config file name is given,
and, when local-scan-dir is not set, whenever the access token is empty, or repo-name is
not empty and does not split on `/` into exactly 2 or 3 parts, or last-modified-cutoff is
negative; in particular (second part) for the empty argument list, which leaves every
flag at its default. -/
theorem C16_initializeScanParameters_rejects
    (flagParse : ScanParameters → List GoString → FlagParse)
    (Getwd : Except GoString GoString) (Stat : GoString → StatResult) :
    (∀ (cliArguments : List GoString) (scanParameters : ScanParameters),
      flagParse flagDefaults cliArguments = FlagParse.parsed scanParameters →
      (scanParameters.configFilename = [] ∨
        (scanParameters.localScanDir = [] ∧
          (scanParameters.accessToken = [] ∨
            (scanParameters.repoName ≠ [] ∧
              (Split 47 scanParameters.repoName).length ≠ 2 ∧
              (Split 47 scanParameters.repoName).length ≠ 3) ∨
            scanParameters.lastModifiedScanCutoff < 0))) →
      ∃ result err,
        initializeScanParameters flagParse Getwd Stat cliArguments =
          some (result, some err)) ∧
    (flagParse flagDefaults [] = FlagParse.parsed flagDefaults →
      ∃ result err,
        initializeScanParameters flagParse Getwd Stat [] = some (result, some err)) := by
  have hmain : ∀ (cliArguments : List GoString) (scanParameters : ScanParameters),
      flagParse flagDefaults cliArguments = FlagParse.parsed scanParameters →
      (scanParameters.configFilename = [] ∨
        (scanParameters.localScanDir = [] ∧
          (scanParameters.accessToken = [] ∨
            (scanParameters.repoName ≠ [] ∧
              (Split 47 scanParameters.repoName).length ≠ 2 ∧
              (Split 47 scanParameters.repoName).length ≠ 3) ∨
            scanParameters.lastModifiedScanCutoff < 0))) →
      ∃ result err,
        initializeScanParameters flagParse Getwd Stat cliArguments =
          some (result, some err) := by
    intro cliArguments scanParameters hparse hbad
    unfold initializeScanParameters
    rw [hparse]
    by_cases hout : scanParameters.outputDir = []
    · simp only [hout, if_true]
      cases Getwd with
      | error message => exact ⟨_, _, rfl⟩
      | ok dir =>
        obtain ⟨e, he⟩ := validateScanParameters_rejects
          { scanParameters with outputDir := dir } none hbad
        exact ⟨_, e, congrArg some he⟩
    · simp only [hout, if_false]
      cases Stat scanParameters.outputDir with
      | notExist message => exact ⟨_, _, rfl⟩
      | ok =>
        obtain ⟨e, he⟩ := validateScanParameters_rejects scanParameters none hbad
        exact ⟨_, e, congrArg some he⟩
      | otherError message =>
        obtain ⟨e, he⟩ := validateScanParameters_rejects scanParameters
          (some (ParameterError.statError message)) hbad
        exact ⟨_, e, congrArg some he⟩
  exact ⟨hmain, fun hparse => hmain [] flagDefaults hparse (Or.inl rfl)⟩

/-- Witness of C16: the empty argument list, and an argument list that gives a
rule-config file, an access token and the repo name `bad` (one part), with the working
directory `w`. -/
theorem C16_initializeScanParameters_rejects_witness :
    (∃ result err,
      initializeScanParameters exFlagParse (Except.ok [119]) (fun _ => StatResult.ok) [] =
        some (result, some err)) ∧
    (∃ result err,
      initializeScanParameters exFlagParse (Except.ok [119]) (fun _ => StatResult.ok) [[45]] =
        some (result, some err)) :=
  ⟨(C16_initializeScanParameters_rejects exFlagParse (Except.ok [119])
      (fun _ => StatResult.ok)).2 rfl,
    (C16_initializeScanParameters_rejects exFlagParse (Except.ok [119])
      (fun _ => StatResult.ok)).1 [[45]]
      { flagDefaults with configFilename := [99], accessToken := [116],
                          repoName := [98, 97, 100] }
      rfl
      (Or.inr ⟨rfl, Or.inr (Or.inl ⟨by decide, by decide, by decide⟩)⟩)⟩

/-! ## Invariant of FileDefects -/

/-- The invariant: every list holds allocated addresses only, and the records of one list
have pairwise distinct fingerprints. -/
theorem AddInstance_preserves (this : FileDefects) (heap : Heap) (fileName : GoString)
    (secret : Secret)
    (hinv : ∀ file ptrs, this.Defects file = some ptrs →
      (∀ p ∈ ptrs, p < heap.length) ∧
      (ptrs.map (fun p => (heap[p]?).map Defect.secretID)).Nodup) :
    ∃ heap1 fd1 ret fresh,
      this.AddInstance heap fileName secret = some (heap1, fd1, ret, fresh) ∧
      ∀ file ptrs, fd1.Defects file = some ptrs →
        (∀ p ∈ ptrs, p < heap1.length) ∧
        (ptrs.map (fun p => (heap1[p]?).map Defect.secretID)).Nodup := by
  by_cases hfound : ∃ ptrs, this.Defects { Filename := fileName } = some ptrs ∧
      ∃ p ∈ ptrs, ∃ d, heap[p]? = some d ∧ d.secretID = secret.ID
  · obtain ⟨ptrs, hfile, hex⟩ := hfound
    obtain ⟨pre, p, post, d, -, -, hd, -, hadd⟩ :=
      AddInstance_present this heap fileName secret ptrs hfile (hinv _ _ hfile).1 hex
    refine ⟨_, _, _, _, hadd, ?_⟩
    intro file ptrs1 hptrs1
    obtain ⟨hvalid, hnodup⟩ := hinv file ptrs1 hptrs1
    refine ⟨fun q hq => by rw [List.length_set]; exact hvalid q hq, ?_⟩
    have hsame : ∀ q : Ptr,
        ((heap.set p { d with Lines := d.Lines ++ [secret.LineNumber] })[q]?).map
          Defect.secretID = (heap[q]?).map Defect.secretID := by
      intro q
      rw [List.getElem?_set]
      by_cases hpq : p = q
      · subst hpq
        obtain ⟨hp, -⟩ := List.getElem?_eq_some_iff.mp hd
        rw [if_pos rfl, if_pos hp, hd]
        rfl
      · rw [if_neg hpq]
    simp only [hsame]
    exact hnodup
  · have habsent : ∀ ptrs, this.Defects { Filename := fileName } = some ptrs →
        ∀ q ∈ ptrs, ∃ e, heap[q]? = some e ∧ e.secretID ≠ secret.ID := by
      intro ptrs hfile q hq
      have hq1 : q < heap.length := (hinv _ _ hfile).1 q hq
      refine ⟨heap[q], List.getElem?_eq_getElem hq1, ?_⟩
      intro hid
      exact hfound ⟨ptrs, hfile, q, hq, heap[q], List.getElem?_eq_getElem hq1, hid⟩
    refine ⟨_, _, _, _, AddInstance_absent this heap fileName secret habsent, ?_⟩
    intro file ptrs1 hptrs1
    have hold : ∀ q : Ptr, q < heap.length →
        ((heap ++ [{ Lines := [secret.LineNumber], secretID := secret.ID,
                     Tag := secret.Rule.Tag, AdditionalInfo := [] }])[q]?).map
          Defect.secretID = (heap[q]?).map Defect.secretID := by
      intro q hq
      rw [List.getElem?_append_left hq]
    by_cases hf : file = { Filename := fileName }
    · subst hf
      simp only [Function.update_same, Option.some.injEq] at hptrs1
      subst hptrs1
      have hvalidOld : ∀ q ∈ (this.Defects { Filename := fileName }).getD [],
          q < heap.length ∧ ∃ e, heap[q]? = some e ∧ e.secretID ≠ secret.ID := by
        intro q hq
        cases hfile : this.Defects { Filename := fileName } with
        | none => simp [hfile] at hq
        | some ptrs =>
          simp only [hfile, Option.getD_some] at hq
          exact ⟨(hinv _ _ hfile).1 q hq, habsent ptrs hfile q hq⟩
      have hnodupOld : (((this.Defects { Filename := fileName }).getD []).map
          (fun p => (heap[p]?).map Defect.secretID)).Nodup := by
        cases hfile : this.Defects { Filename := fileName } with
        | none => simp
        | some ptrs =>
          simp only [Option.getD_some]
          exact (hinv _ _ hfile).2
      constructor
      · intro q hq
        rw [List.length_append, List.length_singleton]
        rcases List.mem_append.mp hq with hq | hq
        · exact Nat.lt_succ_of_lt (hvalidOld q hq).1
        · rw [List.mem_singleton] at hq
          rw [hq]
          exact Nat.lt_succ_self _
      · rw [List.map_append]
        rw [List.map_congr_left (fun q hq => hold q (hvalidOld q hq).1)]
        refine List.Nodup.append hnodupOld (List.nodup_singleton _) ?_
        intro x hx hx1
        simp only [List.map_cons, List.map_nil, List.mem_singleton] at hx1
        rw [List.getElem?_append_right (Nat.le_refl _), Nat.sub_self] at hx1
        simp only [List.getElem?_cons_zero, Option.map_some'] at hx1
        obtain ⟨q, hq, hqx⟩ := List.mem_map.mp hx
        obtain ⟨-, e, he, hne⟩ := hvalidOld q hq
        rw [he, hx1] at hqx
        simp only [Option.map_some', Option.some.injEq] at hqx
        exact hne hqx
    · simp only [Function.update_noteq hf] at hptrs1
      obtain ⟨hvalid, hnodup⟩ := hinv file ptrs1 hptrs1
      refine ⟨fun q hq => by
        rw [List.length_append, List.length_singleton]
        exact Nat.lt_succ_of_lt (hvalid q hq), ?_⟩
      rw [List.map_congr_left (fun q hq => hold q (hvalid q hq))]
      exact hnodup

/-- In a list whose images are pairwise distinct, at most one element has a given
image. -/
theorem length_filter_le_one {α β : Type} [DecidableEq β] (f : α → β) (l : List α)
    (h : (l.map f).Nodup) (b : β) : (l.filter (fun a => f a = b)).length ≤ 1 := by
  induction l with
  | nil => simp
  | cons a rest ih =>
    rw [List.map_cons, List.nodup_cons] at h
    by_cases hab : f a = b
    · have hnil : rest.filter (fun a => f a = b) = [] := by
        rw [List.filter_eq_nil_iff]
        intro x hx hxb
        exact h.1 (List.mem_map.mpr ⟨x, hx, (of_decide_eq_true hxb).trans hab.symm⟩)
      simp [List.filter_cons, hab, hnil]
    · simp only [List.filter_cons, hab, decide_False, Bool.false_eq_true, if_false]
      exact ih h.2

/-- Claim C17: starting from `NewFileDefects()` and applying any sequence of calls of
`AddInstance`, no call panics and, for every file, the Defects of its list are allocated
records with pairwise distinct fingerprints, so that for every fingerprint at most one
Defect of the list matches the lookup of `AddInstance`. -/
theorem C17_AddInstance_distinct_fingerprints (heap : Heap)
    (calls : List (GoString × Secret)) :
    ∃ heap1 fd1, AddInstances calls heap NewFileDefects = some (heap1, fd1) ∧
      ∀ file ptrs, fd1.Defects file = some ptrs →
        (∀ p ∈ ptrs, ∃ d, heap1[p]? = some d) ∧
        (ptrs.map (fun p => (heap1[p]?).map Defect.secretID)).Nodup ∧
        ∀ id : GoString,
          (ptrs.filter (fun p => (heap1[p]?).map Defect.secretID = some id)).length ≤ 1 := by
  have hrun : ∃ heap1 fd1, AddInstances calls heap NewFileDefects = some (heap1, fd1) ∧
      ∀ file ptrs, fd1.Defects file = some ptrs →
        (∀ p ∈ ptrs, p < heap1.length) ∧
        (ptrs.map (fun p => (heap1[p]?).map Defect.secretID)).Nodup := by
    induction calls using List.reverseRecOn with
    | nil =>
      refine ⟨heap, NewFileDefects, rfl, ?_⟩
      intro file ptrs hptrs
      simp [NewFileDefects] at hptrs
    | append_singleton l call ih =>
      obtain ⟨heap1, fd1, hrun, hinv⟩ := ih
      obtain ⟨heap2, fd2, ret, fresh, hadd, hinv2⟩ :=
        AddInstance_preserves fd1 heap1 call.1 call.2 hinv
      refine ⟨heap2, fd2, ?_, hinv2⟩
      unfold AddInstances at hrun ⊢
      rw [List.foldlM_append, hrun]
      simp [hadd]
  obtain ⟨heap1, fd1, hrun1, hinv⟩ := hrun
  refine ⟨heap1, fd1, hrun1, ?_⟩
  intro file ptrs hptrs
  obtain ⟨hvalid, hnodup⟩ := hinv file ptrs hptrs
  refine ⟨fun p hp => ⟨heap1.get ⟨p, hvalid p hp⟩, List.getElem?_eq_getElem (hvalid p hp)⟩,
    hnodup, ?_⟩
  intro id
  exact length_filter_le_one _ ptrs hnodup (some id)

/-! ## Tag and AdditionalInfo of a Defect -/

/-- Claim C18: in `ReduceAndExploit` (on secrets whose file names all lie under
`scanRoot`) every returned Defect has the `Tag` of the rule of the first input secret with
its relative file name and fingerprint, and as `AdditionalInfo` the string `Exploit`
returned for that first secret; and a secret whose pair occurred before allocates no
record and leaves the fingerprint, the `Tag` and the `AdditionalInfo` of every record as
they were, whatever the `Tag` and the `ExploitFn` of its own rule. -/
theorem C18_ReduceAndExploit_tag_and_info_of_first {σ : Type} (hook : ExploitHook σ)
    (this : Report) (heap : Heap) (world : σ) (secrets : List Secret) (scanRoot : GoString)
    (hunder : ∀ s ∈ secrets, liesUnder scanRoot s.FileName) :
    ∃ out, this.ReduceAndExploit hook heap world secrets scanRoot = some out ∧
      (∀ file ptrs, out.fileDefects.Defects file = some ptrs → ∀ p ∈ ptrs,
        ∃ d s pre post before,
          out.heap[p]? = some d ∧
          secrets = pre ++ s :: post ∧
          s.key scanRoot ∉ pre.map (Secret.key scanRoot) ∧
          GetRelativeFilename s.FileName scanRoot = some file.Filename ∧
          s.ID = d.secretID ∧
          this.ReduceAndExploit hook heap world pre scanRoot = some before ∧
          d.Tag = s.Rule.Tag ∧
          d.AdditionalInfo = (s.Exploit hook before.world).1) ∧
      (∀ pre s post, secrets = pre ++ s :: post →
        s.key scanRoot ∈ pre.map (Secret.key scanRoot) →
        ∃ before after,
          this.ReduceAndExploit hook heap world pre scanRoot = some before ∧
          this.ReduceAndExploit hook heap world (pre ++ [s]) scanRoot = some after ∧
          after.heap.length = before.heap.length ∧
          ∀ p : Ptr,
            (after.heap[p]?).map (fun d => (d.secretID, d.Tag, d.AdditionalInfo)) =
              (before.heap[p]?).map (fun d => (d.secretID, d.Tag, d.AdditionalInfo))) := by
  have hall : ∀ s ∈ secrets, ∃ rel, GetRelativeFilename s.FileName scanRoot = some rel :=
    liesUnder_prefix scanRoot secrets secrets [] hunder (by simp)
  refine ⟨_, ReduceAndExploit_eq hook this heap world secrets scanRoot hall, ?_, ?_⟩
  · intro file ptrs hptrs p hp
    obtain ⟨k, s, info, -, hk, hrel, hc, hh⟩ :=
      reduceResult_record hook this heap world secrets scanRoot file ptrs hptrs p hp
    obtain ⟨pre, post, hsplit, hnew⟩ :=
      firstOccurrences_first (Secret.key scanRoot) secrets s (List.getElem?_mem hk)
    obtain ⟨hF, hC⟩ := exploitAll_firstOccurrences_split hook world scanRoot pre post s hnew
    rw [← hsplit] at hF hC
    have hkeq : k = (firstOccurrences (Secret.key scanRoot) pre).length := by
      have hnodup := firstOccurrences_nodup (Secret.key scanRoot) secrets
      have hlt : k < ((firstOccurrences (Secret.key scanRoot) secrets).map
          (Secret.key scanRoot)).length := by
        obtain ⟨hlt, -⟩ := List.getElem?_eq_some_iff.mp hk
        rw [List.length_map]
        exact hlt
      apply List.getElem?_inj hlt hnodup
      rw [List.getElem?_map, List.getElem?_map, hk, hF]
    rw [hkeq, hC] at hc
    have hinfo : info = (s.Exploit hook
        (exploitAll hook world (firstOccurrences (Secret.key scanRoot) pre)).2).1 :=
      (congrArg Prod.snd (Option.some.inj hc)).symm
    have hpre := liesUnder_prefix scanRoot secrets pre (s :: post) hunder hsplit
    exact ⟨_, s, pre, post, _, hh, hsplit, hnew, hrel, rfl,
      ReduceAndExploit_eq hook this heap world pre scanRoot hpre, rfl, hinfo⟩
  · intro pre s post hsplit hmem
    have hpre := liesUnder_prefix scanRoot secrets pre (s :: post) hunder hsplit
    have hpre1 := liesUnder_prefix scanRoot secrets (pre ++ [s]) post hunder (by simp [hsplit])
    refine ⟨_, _, ReduceAndExploit_eq hook this heap world pre scanRoot hpre,
      ReduceAndExploit_eq hook this heap world (pre ++ [s]) scanRoot hpre1, ?_, ?_⟩
    · simp only [reduceResult, firstOccurrences_concat,
        if_pos ((mem_map_firstOccurrences _ _ _).mpr hmem), List.length_append,
        List.length_map]
    · intro p
      simp only [reduceResult, firstOccurrences_concat,
        if_pos ((mem_map_firstOccurrences _ _ _).mpr hmem)]
      by_cases hp : p < heap.length
      · rw [List.getElem?_append_left hp, List.getElem?_append_left hp]
      · have hp1 : heap.length ≤ p := Nat.le_of_not_lt hp
        rw [List.getElem?_append_right hp1, List.getElem?_append_right hp1,
          List.getElem?_map, List.getElem?_map]
        cases (exploitAll hook world (firstOccurrences (Secret.key scanRoot) pre)).1[
          p - heap.length]? with
        | none => rfl
        | some c => rfl

/-- The secrets of `exMixedSecrets` lie under the directory `r`. -/
theorem exMixedSecrets_liesUnder : ∀ s ∈ exMixedSecrets, liesUnder [114] s.FileName := by
  intro s hs
  simp only [exMixedSecrets, List.mem_cons, List.mem_singleton, List.not_mem_nil,
    or_false] at hs
  rcases hs with rfl | rfl <;> exact ⟨47, [102], rfl⟩

/-- Witness of C18: the two secrets of `exMixedSecrets`, of one fingerprint, found by
rules with different tags and functions. -/
theorem C18_ReduceAndExploit_tag_and_info_of_first_witness :
    (∀ s ∈ exMixedSecrets, liesUnder [114] s.FileName) ∧
    ∃ out, (exReport 5).ReduceAndExploit exCountingHook [] 0 exMixedSecrets [114] = some out ∧
      (∀ file ptrs, out.fileDefects.Defects file = some ptrs → ∀ p ∈ ptrs,
        ∃ d s pre post before,
          out.heap[p]? = some d ∧
          exMixedSecrets = pre ++ s :: post ∧
          s.key [114] ∉ pre.map (Secret.key [114]) ∧
          GetRelativeFilename s.FileName [114] = some file.Filename ∧
          s.ID = d.secretID ∧
          (exReport 5).ReduceAndExploit exCountingHook [] 0 pre [114] = some before ∧
          d.Tag = s.Rule.Tag ∧
          d.AdditionalInfo = (s.Exploit exCountingHook before.world).1) ∧
      (∀ pre s post, exMixedSecrets = pre ++ s :: post →
        s.key [114] ∈ pre.map (Secret.key [114]) →
        ∃ before after,
          (exReport 5).ReduceAndExploit exCountingHook [] 0 pre [114] = some before ∧
          (exReport 5).ReduceAndExploit exCountingHook [] 0 (pre ++ [s]) [114] = some after ∧
          after.heap.length = before.heap.length ∧
          ∀ p : Ptr,
            (after.heap[p]?).map (fun d => (d.secretID, d.Tag, d.AdditionalInfo)) =
              (before.heap[p]?).map (fun d => (d.secretID, d.Tag, d.AdditionalInfo))) :=
  ⟨exMixedSecrets_liesUnder,
    C18_ReduceAndExploit_tag_and_info_of_first exCountingHook (exReport 5) [] 0
      exMixedSecrets [114] exMixedSecrets_liesUnder⟩

end Gitdetect
